import Mathlib

/-!
Verification development for the AI-backend-workspace application.

The artifact model, the reconciliation engine (`smartUpdate`), the
commit/revert controller (`handleCommit`, `revertItem`), the naming
heuristics (`getBaseNameFromEndpoint`, controller grouping), the
dependency-graph extractor (route-to-endpoint edges of the visualizer)
and the endpoint-collection operations (`ApisWindow`) are embedded as
executable Lean definitions, translated from `src/App.tsx`,
`src/services/geminiService.ts`, `src/components/Visualizer.tsx` and
`src/components/ApisWindow.tsx`.  JavaScript `Map` objects are modelled
as insertion-ordered association lists, `Date.now()` as an explicit
`now : Nat` parameter, and `JSON.stringify` equality of snapshot payloads
as structural equality.
-/

namespace AIBackend

/-- Snapshot payload of a versioned artifact: every field except `id` and
`history`.  For the artifact kinds that `smartUpdate` is applied to
(`Controller`, `Route`, `Middleware` in `types.ts`) these fields are
exactly `name` and `code`, so the payload is `{name, code}`; this is the
`Omit<T, 'id' | 'history'>` of `App.tsx`. -/
structure ItemData where
  name : String
  code : String
deriving DecidableEq

/-- One history-ledger record, mirroring `HistoryEntry<T>` of `types.ts`:
`{ timestamp, data, message? }`. -/
structure HistoryEntry where
  timestamp : Nat
  data : ItemData
  message : Option String
deriving DecidableEq

/-- A versioned artifact `{id, name, code, history}` (the shape required
of the type parameter `T` of `smartUpdate` in `App.tsx`, and the exact
shape of `Controller`, `Route` and `Middleware`). -/
structure Item where
  id : String
  name : String
  code : String
  history : List HistoryEntry
deriving DecidableEq

/-- The `rest` payload obtained by `const { id, history, ...rest } = item`. -/
def restOf (it : Item) : ItemData := ⟨it.name, it.code⟩

/-- Decimal digit character, for rendering `Date.now()` into template
strings such as the fresh ids of `smartUpdate`. -/
def digitChar (n : Nat) : Char :=
  if n = 0 then Char.ofNat 48 else if n = 1 then Char.ofNat 49
  else if n = 2 then Char.ofNat 50 else if n = 3 then Char.ofNat 51
  else if n = 4 then Char.ofNat 52 else if n = 5 then Char.ofNat 53
  else if n = 6 then Char.ofNat 54 else if n = 7 then Char.ofNat 55
  else if n = 8 then Char.ofNat 56 else Char.ofNat 57

/-- Fuel-driven decimal rendering of a natural number (the fuel `n + 1`
always suffices since the argument shrinks by a factor of ten each step). -/
def natToStrAux : Nat → Nat → List Char → List Char
  | 0, _, acc => acc
  | fuel + 1, n, acc =>
    if n < 10 then digitChar n :: acc
    else natToStrAux fuel (n / 10) (digitChar (n % 10) :: acc)

/-- Decimal rendering of a natural number, as JavaScript string
interpolation renders a timestamp. -/
def natToStr (n : Nat) : String := String.mk (natToStrAux (n + 1) n [])

/-! ### JavaScript `Map`, as an insertion-ordered association list -/

/-- `Map.get`. -/
def mapGet (m : List (String × α)) (k : String) : Option α :=
  (m.find? (fun p => p.1 == k)).map (·.2)

/-- `Map.set`: replaces the value in place when the key is already
present, otherwise appends the binding; insertion order is preserved. -/
def mapSet (m : List (String × α)) (k : String) (v : α) : List (String × α) :=
  if m.any (fun p => p.1 == k) then m.map (fun p => if p.1 == k then (k, v) else p)
  else m ++ [(k, v)]

/-- `Map.delete`. -/
def mapDelete (m : List (String × α)) (k : String) : List (String × α) :=
  m.filter (fun p => p.1 != k)

/-- `new Map(newItems.map(item => [item.name, item]))` — a later batch
item with a duplicate key overwrites the stored value (last write wins)
but keeps the first insertion position. -/
def buildMap (items : List ItemData) : List (String × ItemData) :=
  items.foldl (fun m d => mapSet m d.name d) []

/-! ### The reconciliation engine `smartUpdate` (`App.tsx`, lines 20-64) -/

/-- The update branch of `smartUpdate`: the existing item's pre-update
payload is pushed as a new history entry (message
`'Auto-saved on generation'`, timestamp `Date.now()`), then the batch
payload is spread over the item (`{...existingItem, ...newItemData}`),
keeping the id. -/
def updateItem (now : Nat) (e : Item) (d : ItemData) : Item :=
  { id := e.id, name := d.name, code := d.code,
    history := ⟨now, restOf e, some "Auto-saved on generation"⟩ :: e.history }

/-- The brand-new-item branch of `smartUpdate`: fresh id
`` `${newItemData.name}-${Date.now()}` `` and empty history. -/
def freshItem (now : Nat) (d : ItemData) : Item :=
  { id := d.name ++ "-" ++ natToStr now, name := d.name, code := d.code,
    history := [] }

/-- The `existingItems.forEach` loop of `smartUpdate`: walks the existing
items, pushing the matched (kept or updated) ones onto `finalItems` and
deleting each consumed key from the batch map; returns the pushed items
together with the remaining map. -/
def processExisting (now : Nat) :
    List Item → List (String × ItemData) → List Item × List (String × ItemData)
  | [], m => ([], m)
  | e :: es, m =>
    match mapGet m e.name with
    | some d =>
      let pushed := if e.code = d.code then e else updateItem now e d
      let r := processExisting now es (mapDelete m e.name)
      (pushed :: r.1, r.2)
    | none => processExisting now es m

/-- `smartUpdate` of `App.tsx`: reconciles `existingItems` with a freshly
generated batch, matching by `name`; unmatched existing items are
dropped, unconsumed batch entries become brand-new items appended in map
insertion order. -/
def smartUpdate (now : Nat) (existingItems : List Item) (newItems : List ItemData) :
    List Item :=
  let r := processExisting now existingItems (buildMap newItems)
  r.1 ++ r.2.map (fun p => freshItem now p.2)

/-! ### The commit controller `handleCommit` (`App.tsx`, lines 323-353) -/

/-- The per-item body of `handleCommit`: skip the item when its top
history snapshot already equals its current payload
(`JSON.stringify(history[0].data) === JSON.stringify(rest)`), otherwise
prepend a new entry carrying the current payload (an empty commit message
becomes `undefined`). -/
def commitOne (message : String) (now : Nat) (it : Item) : Item :=
  if it.history.length > 0 ∧ (it.history.head?).map (·.data) = some (restOf it) then it
  else { it with history :=
    ⟨now, restOf it, if message = "" then none else some message⟩ :: it.history }

/-- `handleCommit` of `App.tsx`: an empty collection is reported as
`'Nothing to commit.'` and left untouched; otherwise every item passes
through `commitOne` under one shared timestamp. -/
def handleCommit (message : String) (now : Nat) (items : List Item) : List Item :=
  if items.isEmpty then items else items.map (commitOne message now)

/-! ### The revert controller `revertItem` (`App.tsx`, lines 390-414) -/

/-- The per-item body of `revertItem`: look up the history entry with the
given timestamp; if absent return the item unchanged; otherwise spread
the entry's payload over the item, prepend a `'Reverted'` checkpoint
carrying the pre-revert payload, and drop every entry with the target
timestamp from the list. -/
def revertOne (ts now : Nat) (it : Item) : Item :=
  match it.history.find? (fun h => h.timestamp == ts) with
  | none => it
  | some e =>
    { id := it.id, name := e.data.name, code := e.data.code,
      history := ⟨now, restOf it, some "Reverted"⟩ ::
        it.history.filter (fun h => h.timestamp != ts) }

/-- `revertItem` of `App.tsx`: maps `revertOne` over the item with the
given id, leaving every other item untouched. -/
def revertItem (id : String) (ts now : Nat) (items : List Item) : List Item :=
  items.map (fun it => if it.id == id then revertOne ts now it else it)

/-- The two toast severities of `useToast`. -/
inductive ToastKind where
  | success
  | error
deriving DecidableEq

/-- A toast surfaced to the user: message text and severity. -/
structure Toast where
  msg : String
  kind : ToastKind
deriving DecidableEq

/-- `revertItem` together with the notification it surfaces: the source
unconditionally calls `addToast('Item reverted successfully!', 'success')`
after the state update, whether or not anything matched. -/
def revertItemRun (id : String) (ts now : Nat) (items : List Item) :
    List Item × Toast :=
  (revertItem id ts now items, ⟨"Item reverted successfully!", ToastKind.success⟩)

/-! ### Operation sequences over one artifact collection -/

/-- One user-level operation on a collection of one artifact kind. -/
inductive Op where
  | commit (msg : String)
  | reconcile (batch : List ItemData)
  | revert (id : String) (ts : Nat)

/-- Apply one operation at clock value `now`. -/
def applyOp (now : Nat) (op : Op) (s : List Item) : List Item :=
  match op with
  | .commit msg => handleCommit msg now s
  | .reconcile batch => smartUpdate now s batch
  | .revert id ts => revertItem id ts now s

/-- Apply a timestamped sequence of operations, left to right. -/
def applyOps : List (Nat × Op) → List Item → List Item
  | [], s => s
  | (t, op) :: rest, s => applyOps rest (applyOp t op s)

/-- Histories sorted newest-first by strictly decreasing timestamp. -/
def SortedHistories (s : List Item) : Prop :=
  ∀ it ∈ s, it.history.Pairwise (fun a b => b.timestamp < a.timestamp)

/-- Every history timestamp in the collection is below `t`. -/
def BoundedBelow (s : List Item) (t : Nat) : Prop :=
  ∀ it ∈ s, ∀ h ∈ it.history, h.timestamp < t

instance (s : List Item) : Decidable (SortedHistories s) :=
  List.decidableBAll _ s

instance (s : List Item) (t : Nat) : Decidable (BoundedBelow s t) :=
  List.decidableBAll _ s

example : natToStr 1234 = "1234" := by decide

example :
    smartUpdate 7 [⟨"idA", "A", "a", []⟩] [⟨"A", "b"⟩, ⟨"D", "d"⟩] =
      [⟨"idA", "A", "b", [⟨7, ⟨"A", "a"⟩, some "Auto-saved on generation"⟩]⟩,
       ⟨"D-7", "D", "d", []⟩] := by decide

/-! ### Association-list lemmas for the JavaScript `Map` model -/

theorem mapGet_nil (k : String) : mapGet ([] : List (String × α)) k = none := rfl

theorem mapGet_cons (p : String × α) (m : List (String × α)) (k : String) :
    mapGet (p :: m) k = if p.1 = k then some p.2 else mapGet m k := by
  by_cases h : p.1 = k
  · rw [if_pos h]
    unfold mapGet
    rw [List.find?_cons_of_pos _ (by simp [h])]
    rfl
  · rw [if_neg h]
    unfold mapGet
    rw [List.find?_cons_of_neg _ (by simp [h])]

theorem mapDelete_cons (p : String × α) (m : List (String × α)) (k : String) :
    mapDelete (p :: m) k = if p.1 = k then mapDelete m k else p :: mapDelete m k := by
  by_cases h : p.1 = k <;> simp [mapDelete, List.filter_cons, h]

theorem mapGet_delete_ne (m : List (String × α)) (k k' : String) (h : k' ≠ k) :
    mapGet (mapDelete m k) k' = mapGet m k' := by
  induction m with
  | nil => rfl
  | cons p m ih =>
    rw [mapDelete_cons, mapGet_cons]
    by_cases hp : p.1 = k
    · rw [if_pos hp, ih, if_neg (by rw [hp]; exact fun hc => h hc.symm)]
    · rw [if_neg hp, mapGet_cons, ih]

theorem mapGet_delete_self (m : List (String × α)) (k : String) :
    mapGet (mapDelete m k) k = none := by
  induction m with
  | nil => rfl
  | cons p m ih =>
    rw [mapDelete_cons]
    by_cases hp : p.1 = k
    · rw [if_pos hp]; exact ih
    · rw [if_neg hp, mapGet_cons, if_neg hp]; exact ih

theorem mapGet_eq_none_iff (m : List (String × α)) (k : String) :
    mapGet m k = none ↔ ∀ p ∈ m, p.1 ≠ k := by
  induction m with
  | nil => simp [mapGet_nil]
  | cons p m ih =>
    rw [mapGet_cons]
    by_cases hp : p.1 = k
    · simp [hp]
    · simp only [if_neg hp, ih, List.mem_cons]
      constructor
      · rintro h q (rfl | hq)
        · exact hp
        · exact h q hq
      · intro h q hq
        exact h q (Or.inr hq)

theorem mapGet_map_replace_ne (m : List (String × α)) (k k' : String) (v : α)
    (h : k' ≠ k) :
    mapGet (m.map (fun p => if p.1 == k then (k, v) else p)) k' = mapGet m k' := by
  induction m with
  | nil => rfl
  | cons p m ih =>
    by_cases hp : p.1 = k
    · have h1 : (if p.1 == k then (k, v) else p) = (k, v) := by simp [hp]
      rw [List.map_cons, h1, mapGet_cons, mapGet_cons]
      rw [if_neg (show ¬(k, v).1 = k' from fun hc => h hc.symm),
        if_neg (by rw [hp]; exact fun hc => h hc.symm), ih]
    · have h1 : (if p.1 == k then (k, v) else p) = p := by simp [hp]
      rw [List.map_cons, h1, mapGet_cons, mapGet_cons, ih]

theorem mapGet_map_replace_self (m : List (String × α)) (k : String) (v : α)
    (h : m.any (fun p => p.1 == k) = true) :
    mapGet (m.map (fun p => if p.1 == k then (k, v) else p)) k = some v := by
  induction m with
  | nil => simp at h
  | cons p m ih =>
    by_cases hp : p.1 = k
    · have h1 : (if p.1 == k then (k, v) else p) = (k, v) := by simp [hp]
      rw [List.map_cons, h1, mapGet_cons, if_pos rfl]
    · have h1 : (if p.1 == k then (k, v) else p) = p := by simp [hp]
      rw [List.map_cons, h1, mapGet_cons, if_neg hp]
      rw [List.any_cons] at h
      simp only [beq_eq_false_iff_ne.mpr hp, Bool.false_or] at h
      exact ih h

theorem mapGet_set (m : List (String × α)) (k k' : String) (v : α) :
    mapGet (mapSet m k v) k' = if k = k' then some v else mapGet m k' := by
  unfold mapSet
  by_cases hany : m.any (fun p => p.1 == k) = true
  · rw [if_pos hany]
    by_cases hk : k = k'
    · subst hk; rw [if_pos rfl, mapGet_map_replace_self m k v hany]
    · rw [if_neg hk, mapGet_map_replace_ne m k k' v (fun hc => hk hc.symm)]
  · rw [if_neg hany]
    have habs : ∀ p ∈ m, p.1 ≠ k := by
      intro p hp hc
      exact hany (List.any_eq_true.mpr ⟨p, hp, by simp [hc]⟩)
    by_cases hk : k = k'
    · subst hk
      rw [if_pos rfl]
      have hnone : m.find? (fun p => p.1 == k) = none := by
        rw [List.find?_eq_none]
        intro p hp
        simp [habs p hp]
      unfold mapGet
      rw [List.find?_append, hnone, Option.none_or,
        List.find?_cons_of_pos _ (by simp)]
      rfl
    · rw [if_neg hk]
      have htail : List.find? (fun p : String × α => p.1 == k') [(k, v)] = none := by
        rw [List.find?_cons_of_neg _ (by simp [hk])]
        rfl
      unfold mapGet
      rw [List.find?_append, htail, Option.or_none]

/-! ### `buildMap` characterizations -/

theorem foldl_mapSet_of_nodup (batch : List ItemData) :
    ∀ m : List (String × ItemData), (batch.map ItemData.name).Nodup →
      (∀ d ∈ batch, mapGet m d.name = none) →
      batch.foldl (fun m d => mapSet m d.name d) m =
        m ++ batch.map (fun d => (d.name, d)) := by
  induction batch with
  | nil => intro m _ _; simp
  | cons d bs ih =>
    intro m hnd habs
    rw [List.map_cons, List.nodup_cons] at hnd
    have hset : mapSet m d.name d = m ++ [(d.name, d)] := by
      unfold mapSet
      rw [if_neg]
      intro hany
      rcases List.any_eq_true.mp hany with ⟨p, hp, hpk⟩
      have := (mapGet_eq_none_iff m d.name).mp (habs d (List.mem_cons_self d bs)) p hp
      exact this (by simpa using hpk)
    rw [List.foldl_cons, hset, ih (m ++ [(d.name, d)]) hnd.2]
    · simp
    · intro d' hd'
      have hne : d'.name ≠ d.name := by
        intro hc
        exact hnd.1 (hc ▸ List.mem_map_of_mem ItemData.name hd')
      rcases hget : mapGet (m ++ [(d.name, d)]) d'.name with _ | v
      · rfl
      · exfalso
        unfold mapGet at hget
        rw [List.find?_append] at hget
        have h1 : m.find? (fun p => p.1 == d'.name) = none := by
          rcases hm : m.find? (fun p => p.1 == d'.name) with _ | q
          · exact hm
          · have := habs d' (List.mem_cons_of_mem d hd')
            unfold mapGet at this
            rw [hm] at this
            simp at this
        have h2 : List.find? (fun p : String × ItemData => p.1 == d'.name)
            [(d.name, d)] = none := by
          rw [List.find?_cons_of_neg _ (by simp; exact fun hc => hne hc.symm)]
          rfl
        rw [h1, h2] at hget
        simp at hget

theorem buildMap_of_nodup (batch : List ItemData)
    (hnd : (batch.map ItemData.name).Nodup) :
    buildMap batch = batch.map (fun d => (d.name, d)) := by
  unfold buildMap
  rw [foldl_mapSet_of_nodup batch [] hnd (fun d _ => rfl)]
  rfl

theorem mapGet_map_pair (batch : List ItemData) (k : String) :
    mapGet (batch.map (fun d => (d.name, d))) k =
      batch.find? (fun d => d.name == k) := by
  induction batch with
  | nil => rfl
  | cons d bs ih =>
    rw [List.map_cons, mapGet_cons]
    by_cases h : d.name = k
    · rw [if_pos h, List.find?_cons_of_pos _ (by simp [h])]
    · rw [if_neg h, List.find?_cons_of_neg _ (by simp [h]), ih]

theorem mapGet_foldl_set (batch : List ItemData) :
    ∀ (m : List (String × ItemData)) (k : String),
      mapGet (batch.foldl (fun m d => mapSet m d.name d) m) k =
        batch.foldl (fun acc d => if d.name = k then some d else acc) (mapGet m k) := by
  induction batch with
  | nil => intro m k; rfl
  | cons d bs ih =>
    intro m k
    rw [List.foldl_cons, List.foldl_cons, ih, mapGet_set]

theorem foldl_option_isSome (batch : List ItemData) :
    ∀ (o : Option ItemData) (k : String),
      (batch.foldl (fun acc d => if d.name = k then some d else acc) o).isSome =
        (o.isSome || batch.any (fun d => d.name == k)) := by
  induction batch with
  | nil => intro o k; simp
  | cons d bs ih =>
    intro o k
    rw [List.foldl_cons, ih, List.any_cons]
    by_cases hd : d.name = k
    · simp [hd]
    · simp [hd, beq_eq_false_iff_ne.mpr hd]

theorem mapGet_buildMap_isSome (batch : List ItemData) (k : String) :
    (mapGet (buildMap batch) k).isSome = batch.any (fun d => d.name == k) := by
  unfold buildMap
  rw [mapGet_foldl_set, foldl_option_isSome]
  rfl

/-- Every stored value's `name` equals its key: an invariant of the batch
map built by `smartUpdate`. -/
def MapWf (m : List (String × ItemData)) : Prop := ∀ p ∈ m, p.2.name = p.1

theorem mapWf_of_sublist {m m' : List (String × ItemData)}
    (hs : m'.Sublist m) (h : MapWf m) : MapWf m' :=
  fun p hp => h p (hs.subset hp)

theorem buildMap_wf (batch : List ItemData) : MapWf (buildMap batch) := by
  unfold buildMap
  suffices h : ∀ m : List (String × ItemData), MapWf m →
      MapWf (batch.foldl (fun m d => mapSet m d.name d) m) from
    h [] (fun p hp => absurd hp (List.not_mem_nil p))
  induction batch with
  | nil => intro m hm; exact hm
  | cons d bs ih =>
    intro m hm
    rw [List.foldl_cons]
    refine ih _ ?_
    intro p hp
    unfold mapSet at hp
    by_cases hany : m.any (fun p => p.1 == d.name) = true
    · rw [if_pos hany] at hp
      rcases List.mem_map.mp hp with ⟨q, hq, hfq⟩
      by_cases hqd : q.1 = d.name
      · rw [if_pos (by simpa using hqd)] at hfq
        rw [← hfq]
      · rw [if_neg (by simpa using hqd)] at hfq
        rw [← hfq]
        exact hm q hq
    · rw [if_neg hany] at hp
      rcases List.mem_append.mp hp with hq | hq
      · exact hm p hq
      · rcases List.mem_singleton.mp hq with rfl
        rfl

theorem mapGet_wf_name {m : List (String × ItemData)} {k : String} {d : ItemData}
    (hwf : MapWf m) (h : mapGet m k = some d) : d.name = k := by
  unfold mapGet at h
  rcases hfind : m.find? (fun p => p.1 == k) with _ | p
  · rw [hfind] at h; simp at h
  · rw [hfind] at h
    have hp : p ∈ m := List.mem_of_find?_eq_some hfind
    have hk : p.1 = k := by simpa using List.find?_some hfind
    have hd : p.2 = d := by simpa using h
    rw [← hd, hwf p hp, hk]

/-! ### Characterizing the `smartUpdate` loop -/

theorem processExisting_cons_some (now : Nat) (e : Item) (es : List Item)
    (m : List (String × ItemData)) (d : ItemData) (hm : mapGet m e.name = some d) :
    processExisting now (e :: es) m =
      ((if e.code = d.code then e else updateItem now e d) ::
        (processExisting now es (mapDelete m e.name)).1,
       (processExisting now es (mapDelete m e.name)).2) := by
  rw [processExisting, hm]

theorem processExisting_cons_none (now : Nat) (e : Item) (es : List Item)
    (m : List (String × ItemData)) (hm : mapGet m e.name = none) :
    processExisting now (e :: es) m = processExisting now es m := by
  rw [processExisting, hm]

theorem processExisting_of_nodup (now : Nat) :
    ∀ (ex : List Item) (m : List (String × ItemData)),
      (ex.map Item.name).Nodup →
      processExisting now ex m =
        (ex.filterMap (fun e => (mapGet m e.name).map
            (fun d => if e.code = d.code then e else updateItem now e d)),
         m.filter (fun p => !(ex.any (fun e => e.name == p.1)))) := by
  intro ex
  induction ex with
  | nil =>
    intro m _
    rw [processExisting]
    simp
  | cons e es ih =>
    intro m hnd
    rw [List.map_cons, List.nodup_cons] at hnd
    have hne : ∀ e' ∈ es, e'.name ≠ e.name := fun e' he' hc =>
      hnd.1 (hc ▸ List.mem_map_of_mem Item.name he')
    cases hm : mapGet m e.name with
    | some d =>
      rw [processExisting_cons_some now e es m d hm, ih (mapDelete m e.name) hnd.2,
        Prod.mk.injEq]
      refine ⟨?_, ?_⟩
      · simp only [List.filterMap_cons, hm, Option.map_some']
        congr 1
        refine List.filterMap_congr ?_
        intro e' he'
        rw [mapGet_delete_ne m e.name e'.name (hne e' he')]
      · rw [show mapDelete m e.name = m.filter (fun p => p.1 != e.name) from rfl,
          List.filter_filter]
        refine List.filter_congr ?_
        intro p _
        by_cases hpe : p.1 = e.name
        · simp [hpe]
        · have h1 : (p.1 != e.name) = true := by simp [hpe]
          have h2 : (e.name == p.1) = false :=
            beq_eq_false_iff_ne.mpr (fun hc => hpe hc.symm)
          simp [h1, h2]
    | none =>
      rw [processExisting_cons_none now e es m hm, ih m hnd.2, Prod.mk.injEq]
      have habs : ∀ p ∈ m, p.1 ≠ e.name := (mapGet_eq_none_iff m e.name).mp hm
      refine ⟨?_, ?_⟩
      · simp only [List.filterMap_cons, hm, Option.map_none']
      · refine List.filter_congr ?_
        intro p hp
        have h2 : (e.name == p.1) = false :=
          beq_eq_false_iff_ne.mpr (fun hc => habs p hp hc.symm)
        simp [h2]

/-- The first existing item with a given name is located by `find?` when
names are pairwise distinct. -/
theorem find?_name_self (ex : List Item) (e : Item)
    (hnd : (ex.map Item.name).Nodup) (he : e ∈ ex) :
    ex.find? (fun x => x.name == e.name) = some e := by
  induction ex with
  | nil => cases he
  | cons a es ih =>
    rw [List.map_cons, List.nodup_cons] at hnd
    rcases List.mem_cons.mp he with rfl | he'
    · rw [List.find?_cons_of_pos _ (by simp)]
    · have hne : a.name ≠ e.name := fun hc =>
        hnd.1 (hc ▸ List.mem_map_of_mem Item.name he')
      rw [List.find?_cons_of_neg _ (by simp [hne]), ih hnd.2 he']

/-- Claim C1: reconciling an existing collection with a generated batch
(matching by the natural key `name`, keys unique within the collection
and within the batch as the data model requires) returns exactly the
matched existing artifacts in their prior relative order — each kept
entirely unchanged when the batch content equals its current content and
otherwise updated to the batch content with one new history entry
recording the pre-update content prepended — followed by one brand-new
artifact (fresh id, empty history) for each batch key not consumed by a
match, in batch order; every existing artifact whose key is absent from
the batch is dropped. -/
theorem c1_reconciliation (now : Nat) (ex : List Item) (batch : List ItemData)
    (hex : (ex.map Item.name).Nodup) (hb : (batch.map ItemData.name).Nodup) :
    smartUpdate now ex batch =
      ex.filterMap (fun e =>
        (batch.find? (fun d => d.name == e.name)).map
          (fun d => if e.code = d.code then e else updateItem now e d))
      ++ (batch.filter (fun d => !(ex.any (fun e => e.name == d.name)))).map
          (freshItem now) := by
  unfold smartUpdate
  rw [buildMap_of_nodup batch hb, processExisting_of_nodup now ex _ hex]
  show List.filterMap _ ex ++ List.map _ (List.filter _ _) = _
  congr 1
  · refine List.filterMap_congr ?_
    intro e _
    rw [mapGet_map_pair]
  · rw [List.filter_map, List.map_map]
    rfl

/-- Claim C1, instantiated: existing keys `{A, B, C}` reconciled with
batch keys `{A, C, D}` yield `A` updated (its old content pushed to
history), `C` kept untouched, and a brand-new `D`; `B` is dropped. -/
theorem c1_reconciliation_witness :
    ((([⟨"idA", "A", "a1", []⟩, ⟨"idB", "B", "b1", []⟩,
        ⟨"idC", "C", "c1", []⟩] : List Item).map Item.name).Nodup ∧
      ((([⟨"A", "a2"⟩, ⟨"C", "c1"⟩, ⟨"D", "d1"⟩] : List ItemData).map
        ItemData.name).Nodup)) ∧
    smartUpdate 9
      [⟨"idA", "A", "a1", []⟩, ⟨"idB", "B", "b1", []⟩, ⟨"idC", "C", "c1", []⟩]
      [⟨"A", "a2"⟩, ⟨"C", "c1"⟩, ⟨"D", "d1"⟩] =
      ([⟨"idA", "A", "a1", []⟩, ⟨"idB", "B", "b1", []⟩,
        ⟨"idC", "C", "c1", []⟩] : List Item).filterMap (fun e =>
          (([⟨"A", "a2"⟩, ⟨"C", "c1"⟩, ⟨"D", "d1"⟩] : List ItemData).find?
            (fun d => d.name == e.name)).map
            (fun d => if e.code = d.code then e else updateItem 9 e d))
        ++ (([⟨"A", "a2"⟩, ⟨"C", "c1"⟩, ⟨"D", "d1"⟩] : List ItemData).filter
            (fun d => !(([⟨"idA", "A", "a1", []⟩, ⟨"idB", "B", "b1", []⟩,
              ⟨"idC", "C", "c1", []⟩] : List Item).any
              (fun e => e.name == d.name)))).map (freshItem 9) :=
  ⟨⟨by decide, by decide⟩,
    c1_reconciliation 9 _ _ (by decide) (by decide)⟩

/-- Claim C4: reconciling with a batch whose keys and contents replicate
the current collection (keys unique within the collection, as the data
model requires) returns the collection itself: same ids, same contents,
same histories, no new history entries. -/
theorem c4_reconcile_idempotent (now : Nat) (ex : List Item)
    (hex : (ex.map Item.name).Nodup) :
    smartUpdate now ex (ex.map restOf) = ex := by
  have hbn : ((ex.map restOf).map ItemData.name) = ex.map Item.name := by
    rw [List.map_map]; rfl
  have hb : ((ex.map restOf).map ItemData.name).Nodup := by rw [hbn]; exact hex
  unfold smartUpdate
  rw [buildMap_of_nodup _ hb, processExisting_of_nodup now ex _ hex]
  show List.filterMap _ ex ++ List.map _ (List.filter _ _) = _
  have h1 : ex.filterMap (fun e =>
      (mapGet ((ex.map restOf).map (fun d => (d.name, d))) e.name).map
        (fun d => if e.code = d.code then e else updateItem now e d)) = ex := by
    have hptw : ∀ e ∈ ex,
        (mapGet ((ex.map restOf).map (fun d => (d.name, d))) e.name).map
          (fun d => if e.code = d.code then e else updateItem now e d) =
        some e := by
      intro e he
      rw [mapGet_map_pair, List.find?_map,
        show ((fun d : ItemData => d.name == e.name) ∘ restOf) =
          (fun x : Item => x.name == e.name) from rfl,
        find?_name_self ex e hex he]
      show some (if e.code = e.code then e else _) = some e
      rw [if_pos rfl]
    rw [List.filterMap_congr hptw]
    exact List.filterMap_some ex
  rw [h1, List.filter_map, List.map_map]
  have hflt : ((ex.map restOf).filter
      ((fun p : String × ItemData => !(ex.any (fun e => e.name == p.1))) ∘
        fun d => (d.name, d))) = [] := by
    refine List.filter_eq_nil_iff.mpr ?_
    intro d hd
    rcases List.mem_map.mp hd with ⟨x, hx, rfl⟩
    have hx2 : ex.any (fun y => y.name == (restOf x).name) = true :=
      List.any_eq_true.mpr ⟨x, hx, by simp [restOf]⟩
    show ¬(!(ex.any (fun y => y.name == (restOf x).name))) = true
    simp [hx2]
  rw [hflt, List.map_nil, List.append_nil]

/-- Claim C4, instantiated at a two-artifact collection with histories. -/
theorem c4_reconcile_idempotent_witness :
    ((([⟨"m1", "User", "u1", [⟨1, ⟨"User", "u0"⟩, none⟩]⟩,
        ⟨"m2", "Post", "p1", []⟩] : List Item).map Item.name).Nodup) ∧
    smartUpdate 5
      [⟨"m1", "User", "u1", [⟨1, ⟨"User", "u0"⟩, none⟩]⟩, ⟨"m2", "Post", "p1", []⟩]
      (([⟨"m1", "User", "u1", [⟨1, ⟨"User", "u0"⟩, none⟩]⟩,
        ⟨"m2", "Post", "p1", []⟩] : List Item).map restOf) =
      [⟨"m1", "User", "u1", [⟨1, ⟨"User", "u0"⟩, none⟩]⟩, ⟨"m2", "Post", "p1", []⟩] :=
  ⟨by decide, c4_reconcile_idempotent 5 _ (by decide)⟩

/-! ### First-occurrence behaviour of the `smartUpdate` loop
(no assumption of distinct existing names) -/

theorem processExisting_snd_sublist (now : Nat) :
    ∀ (ex : List Item) (m : List (String × ItemData)),
      (processExisting now ex m).2.Sublist m := by
  intro ex
  induction ex with
  | nil => intro m; exact List.Sublist.refl m
  | cons e es ih =>
    intro m
    cases hm : mapGet m e.name with
    | some d =>
      rw [processExisting_cons_some now e es m d hm]
      exact (ih (mapDelete m e.name)).trans (List.filter_sublist m)
    | none =>
      rw [processExisting_cons_none now e es m hm]
      exact ih m

theorem processExisting_filter_name (now : Nat) (k : String) :
    ∀ (ex : List Item) (m : List (String × ItemData)), MapWf m →
      ((processExisting now ex m).1.filter (fun r => r.name == k)) =
        (match ex.find? (fun e => e.name == k), mapGet m k with
         | some a, some d => [if a.code = d.code then a else updateItem now a d]
         | _, _ => []) := by
  intro ex
  induction ex with
  | nil =>
    intro m _
    show List.filter _ [] = _
    cases mapGet m k <;> rfl
  | cons e es ih =>
    intro m hwf
    by_cases hek : e.name = k
    · cases hm : mapGet m e.name with
      | some d =>
        have hwf' : MapWf (mapDelete m e.name) :=
          mapWf_of_sublist (List.filter_sublist m) hwf
        have hcond : ((if e.code = d.code then e else updateItem now e d).name == k)
            = true := by
          by_cases hc : e.code = d.code
          · rw [if_pos hc]; simp [hek]
          · rw [if_neg hc]
            show (d.name == k) = true
            rw [mapGet_wf_name hwf hm, hek]
            simp
        have hnone : mapGet (mapDelete m e.name) k = none := by
          rw [← hek]; exact mapGet_delete_self m e.name
        have hfind : (e :: es).find? (fun x => x.name == k) = some e :=
          List.find?_cons_of_pos _ (by simp [hek])
        have hmk : mapGet m k = some d := by rw [← hek]; exact hm
        rw [processExisting_cons_some now e es m d hm]
        show List.filter _ (_ :: _) = _
        rw [List.filter_cons_of_pos (p := fun r : Item => r.name == k) hcond,
          ih (mapDelete m e.name) hwf', hnone, hfind, hmk]
        cases es.find? (fun x => x.name == k) <;> rfl
      | none =>
        rw [processExisting_cons_none now e es m hm, ih m hwf]
        have hmk : mapGet m k = none := by rw [← hek]; exact hm
        rw [hmk]
        cases es.find? (fun x => x.name == k) <;>
          cases (e :: es).find? (fun x => x.name == k) <;> rfl
    · cases hm : mapGet m e.name with
      | some d =>
        have hwf' : MapWf (mapDelete m e.name) :=
          mapWf_of_sublist (List.filter_sublist m) hwf
        have hpn : (if e.code = d.code then e else updateItem now e d).name = e.name := by
          by_cases hc : e.code = d.code
          · rw [if_pos hc]
          · rw [if_neg hc]
            show d.name = e.name
            exact mapGet_wf_name hwf hm
        have hcond : ¬((if e.code = d.code then e else updateItem now e d).name == k)
            = true := by
          rw [hpn]
          simp [hek]
        rw [processExisting_cons_some now e es m d hm]
        show List.filter _ (_ :: _) = _
        rw [List.filter_cons_of_neg (p := fun r : Item => r.name == k) hcond,
          ih (mapDelete m e.name) hwf',
          mapGet_delete_ne m e.name k (fun hc => hek hc.symm),
          List.find?_cons_of_neg _ (by simp [hek])]
      | none =>
        rw [processExisting_cons_none now e es m hm, ih m hwf,
          List.find?_cons_of_neg _ (by simp [hek])]

theorem processExisting_snd_get (now : Nat) (k : String) :
    ∀ (ex : List Item) (m : List (String × ItemData)),
      mapGet (processExisting now ex m).2 k =
        if ex.any (fun e => e.name == k) then none else mapGet m k := by
  intro ex
  induction ex with
  | nil => intro m; simp [processExisting]
  | cons e es ih =>
    intro m
    by_cases hek : e.name = k
    · have hany : (e :: es).any (fun x => x.name == k) = true := by simp [hek]
      rw [hany]
      cases hm : mapGet m e.name with
      | some d =>
        rw [processExisting_cons_some now e es m d hm]
        show mapGet (processExisting now es (mapDelete m e.name)).2 k = _
        rw [ih (mapDelete m e.name)]
        have hnone : mapGet (mapDelete m e.name) k = none := by
          rw [← hek]; exact mapGet_delete_self m e.name
        rw [hnone, ite_self, if_pos rfl]
      | none =>
        rw [processExisting_cons_none now e es m hm, ih m]
        have hmk : mapGet m k = none := by rw [← hek]; exact hm
        rw [hmk, ite_self, if_pos rfl]
    · have hany : (e :: es).any (fun x => x.name == k) = es.any (fun x => x.name == k) := by
        simp [List.any_cons, beq_eq_false_iff_ne.mpr hek]
      rw [hany]
      cases hm : mapGet m e.name with
      | some d =>
        rw [processExisting_cons_some now e es m d hm]
        show mapGet (processExisting now es (mapDelete m e.name)).2 k = _
        rw [ih (mapDelete m e.name),
          mapGet_delete_ne m e.name k (fun hc => hek hc.symm)]
      | none =>
        rw [processExisting_cons_none now e es m hm, ih m]

/-- Claim C10: when the existing collection contains two or more
artifacts sharing one natural key, only the first occurrence is matched
against the batch and kept; every later existing artifact with that name
is silently dropped even though the batch contains that key (its batch
item was consumed by the first occurrence).  The filtered result holds
exactly one artifact with that name, and it carries the first
occurrence's id. -/
theorem c10_duplicate_keys (now : Nat) (ex : List Item) (batch : List ItemData)
    (k : String) (a : Item)
    (hfirst : ex.find? (fun e => e.name == k) = some a)
    (hbatch : batch.any (fun d => d.name == k) = true)
    (hdup : 2 ≤ (ex.filter (fun e => e.name == k)).length) :
    ((smartUpdate now ex batch).filter (fun r => r.name == k)).map Item.id = [a.id] := by
  unfold smartUpdate
  rw [List.filter_append, List.map_append]
  have hwf := buildMap_wf batch
  have hsnd : mapGet (processExisting now ex (buildMap batch)).2 k = none := by
    rw [processExisting_snd_get]
    have hpa := List.find?_some hfirst
    have hany : ex.any (fun e => e.name == k) = true :=
      List.any_eq_true.mpr ⟨a, List.mem_of_find?_eq_some hfirst, hpa⟩
    rw [hany, if_pos rfl]
  have hwfs : MapWf (processExisting now ex (buildMap batch)).2 :=
    mapWf_of_sublist (processExisting_snd_sublist now ex (buildMap batch)) hwf
  have hkeys : ∀ p ∈ (processExisting now ex (buildMap batch)).2, p.1 ≠ k :=
    (mapGet_eq_none_iff _ k).mp hsnd
  have hpart2 : (((processExisting now ex (buildMap batch)).2.map
      (fun p => freshItem now p.2)).filter (fun r => r.name == k)) = [] := by
    rw [List.filter_map]
    have hnil : ((processExisting now ex (buildMap batch)).2.filter
        ((fun r : Item => r.name == k) ∘ fun p => freshItem now p.2)) = [] := by
      refine List.filter_eq_nil_iff.mpr ?_
      intro p hp
      show ¬((freshItem now p.2).name == k) = true
      have hfn : (freshItem now p.2).name = p.1 := hwfs p hp
      rw [hfn]
      simp [hkeys p hp]
    rw [hnil, List.map_nil]
  rw [hpart2, List.map_nil, List.append_nil,
    processExisting_filter_name now k ex (buildMap batch) hwf, hfirst]
  rcases hget : mapGet (buildMap batch) k with _ | d
  · exfalso
    have hsome : (mapGet (buildMap batch) k).isSome = true := by
      rw [mapGet_buildMap_isSome]; exact hbatch
    rw [hget] at hsome
    simp at hsome
  · show [if a.code = d.code then a else updateItem now a d].map Item.id = [a.id]
    by_cases hc : a.code = d.code
    · rw [if_pos hc]; rfl
    · rw [if_neg hc]; rfl

/-- Claim C10, instantiated: two existing artifacts named `N`, batch
containing key `N`; only the first survives, the second is dropped. -/
theorem c10_duplicate_keys_witness :
    ((([⟨"i1", "N", "x", []⟩, ⟨"i2", "N", "y", []⟩] : List Item).find?
        (fun e => e.name == "N") = some ⟨"i1", "N", "x", []⟩) ∧
      (([⟨"N", "z"⟩] : List ItemData).any (fun d => d.name == "N") = true) ∧
      2 ≤ (([⟨"i1", "N", "x", []⟩, ⟨"i2", "N", "y", []⟩] : List Item).filter
        (fun e => e.name == "N")).length) ∧
    ((smartUpdate 3 [⟨"i1", "N", "x", []⟩, ⟨"i2", "N", "y", []⟩]
        [⟨"N", "z"⟩]).filter (fun r => r.name == "N")).map Item.id = ["i1"] :=
  ⟨⟨by decide, by decide, by decide⟩,
    c10_duplicate_keys 3
      [⟨"i1", "N", "x", []⟩, ⟨"i2", "N", "y", []⟩] [⟨"N", "z"⟩] "N"
      ⟨"i1", "N", "x", []⟩ (by decide) (by decide) (by decide)⟩

/-! ### Claims about commit and revert -/

/-- Claim C3: for an artifact whose history holds an entry `e` with
snapshot `X` at timestamp `ts` (and whose current content is `Y`),
reverting to `ts` (at a fresh clock value `now ≠ ts`) makes `X` the
current content, prepends a top entry tagged `'Reverted'` whose snapshot
is the pre-revert content `Y`, and removes the restored entry from the
history — it is not left both active and historical. -/
theorem c3_revert_roundtrip (it : Item) (e : HistoryEntry) (ts now : Nat)
    (hfind : it.history.find? (fun h => h.timestamp == ts) = some e)
    (hts : ts ≠ now) :
    revertOne ts now it =
      { id := it.id, name := e.data.name, code := e.data.code,
        history := ⟨now, restOf it, some "Reverted"⟩ ::
          it.history.filter (fun h => h.timestamp != ts) } ∧
    e ∉ (revertOne ts now it).history ∧
    revertItem it.id ts now [it] = [revertOne ts now it] := by
  have h1 : revertOne ts now it =
      { id := it.id, name := e.data.name, code := e.data.code,
        history := ⟨now, restOf it, some "Reverted"⟩ ::
          it.history.filter (fun h => h.timestamp != ts) } := by
    rw [revertOne, hfind]
  have hets : e.timestamp = ts := by simpa using List.find?_some hfind
  refine ⟨h1, ?_, ?_⟩
  · rw [h1]
    intro hmem
    rcases List.mem_cons.mp hmem with heq | hmem2
    · rw [heq] at hets
      exact hts hets.symm
    · have hkept := (List.mem_filter.mp hmem2).2
      rw [hets] at hkept
      simp at hkept
  · show List.map _ [it] = _
    rw [List.map_cons, List.map_nil, if_pos (beq_self_eq_true it.id)]

/-- Claim C3, instantiated: content `Y` with an `X` snapshot at
timestamp 1; reverting to 1 at clock 2 restores `X` and leaves a single
`'Reverted'` entry whose snapshot is `Y`. -/
theorem c3_revert_roundtrip_witness :
    ((([⟨1, ⟨"M", "X"⟩, none⟩] : List HistoryEntry).find?
        (fun h => h.timestamp == 1) = some ⟨1, ⟨"M", "X"⟩, none⟩) ∧ (1 : Nat) ≠ 2) ∧
    revertItem "m1" 1 2 [⟨"m1", "M", "Y", [⟨1, ⟨"M", "X"⟩, none⟩]⟩] =
      [⟨"m1", "M", "X", [⟨2, ⟨"M", "Y"⟩, some "Reverted"⟩]⟩] :=
  ⟨⟨by decide, by decide⟩, by
    have h := c3_revert_roundtrip ⟨"m1", "M", "Y", [⟨1, ⟨"M", "X"⟩, none⟩]⟩
      ⟨1, ⟨"M", "X"⟩, none⟩ 1 2 (by decide) (by decide)
    rw [h.2.2, h.1]
    decide⟩

/-- Claim C5 counterexample: a revert whose timestamp matches no history
entry leaves the collection untouched but surfaces the *success* toast
`'Item reverted successfully!'` — no `ArtifactNotFound`-class error is
raised, contradicting the claim that the operation fails with an error. -/
theorem c5_stale_revert_counterexample :
    revertItemRun "m1" 99 5 [⟨"m1", "M", "Y", [⟨1, ⟨"M", "X"⟩, none⟩]⟩] =
      ([⟨"m1", "M", "Y", [⟨1, ⟨"M", "X"⟩, none⟩]⟩],
        ⟨"Item reverted successfully!", ToastKind.success⟩) ∧
    ToastKind.success ≠ ToastKind.error :=
  ⟨by decide, by decide⟩

/-- Claim C5 as amended: a revert referencing a stale target — an id not
present, or a timestamp with no matching entry for that artifact —
performs no mutation (every artifact's content and history are left
exactly as they were), but no error is surfaced: the operation reports
the success toast. -/
theorem c5_stale_revert_no_mutation (items : List Item) (i : String) (ts now : Nat)
    (h : ∀ it ∈ items, it.id = i →
      it.history.find? (fun h2 => h2.timestamp == ts) = none) :
    revertItemRun i ts now items =
      (items, ⟨"Item reverted successfully!", ToastKind.success⟩) := by
  unfold revertItemRun
  have hmap : revertItem i ts now items = items := by
    unfold revertItem
    have hptw : ∀ it ∈ items, (if it.id == i then revertOne ts now it else it) = it := by
      intro it hit
      by_cases hid : it.id = i
      · rw [if_pos (by simp [hid]), revertOne, h it hit hid]
      · rw [if_neg (by simp [hid])]
    rw [List.map_congr_left hptw, List.map_id']
  rw [hmap]

/-- Claim C5 as amended, instantiated at a stale artifact id. -/
theorem c5_stale_revert_no_mutation_witness :
    (∀ it ∈ ([⟨"m1", "M", "Y", [⟨1, ⟨"M", "X"⟩, none⟩]⟩] : List Item), it.id = "zz" →
      it.history.find? (fun h2 => h2.timestamp == 7) = none) ∧
    revertItemRun "zz" 7 9 [⟨"m1", "M", "Y", [⟨1, ⟨"M", "X"⟩, none⟩]⟩] =
      ([⟨"m1", "M", "Y", [⟨1, ⟨"M", "X"⟩, none⟩]⟩],
        ⟨"Item reverted successfully!", ToastKind.success⟩) :=
  ⟨by decide, c5_stale_revert_no_mutation _ "zz" 7 9 (by decide)⟩

/-- Claim C8: commit is a no-op on a collection in which every artifact's
top history snapshot already equals its current content (in particular on
the empty collection), and committing twice in a row equals committing
once. -/
theorem c8_commit_noop (msg msg2 : String) (now now2 : Nat) (items : List Item)
    (h : ∀ it ∈ items, (it.history.head?).map (·.data) = some (restOf it)) :
    handleCommit msg now items = items ∧
    (∀ its : List Item,
      handleCommit msg2 now2 (handleCommit msg now its) = handleCommit msg now its) ∧
    handleCommit msg now ([] : List Item) = [] := by
  have hone : ∀ (msgA : String) (nowA : Nat) (it : Item),
      (it.history.head?).map (·.data) = some (restOf it) →
      commitOne msgA nowA it = it := by
    intro msgA nowA it hit
    rcases hh : it.history with _ | ⟨a, t⟩
    · rw [hh] at hit; simp at hit
    · unfold commitOne
      rw [if_pos ⟨by rw [hh]; simp, hit⟩]
  have hfix : ∀ (msgA : String) (nowA : Nat) (l : List Item),
      (∀ it ∈ l, (it.history.head?).map (·.data) = some (restOf it)) →
      handleCommit msgA nowA l = l := by
    intro msgA nowA l hl
    unfold handleCommit
    by_cases hemp : l.isEmpty
    · rw [if_pos hemp]
    · rw [if_neg hemp, List.map_congr_left (fun it hit => hone msgA nowA it (hl it hit)),
        List.map_id']
  have hpost : ∀ (its : List Item) (it : Item), it ∈ handleCommit msg now its →
      (it.history.head?).map (·.data) = some (restOf it) := by
    intro its it hit
    unfold handleCommit at hit
    by_cases hemp : its.isEmpty
    · rw [if_pos hemp, List.isEmpty_iff.mp hemp] at hit
      exact absurd hit (List.not_mem_nil it)
    · rw [if_neg hemp] at hit
      rcases List.mem_map.mp hit with ⟨x, hx, rfl⟩
      by_cases hcond : x.history.length > 0 ∧
          (x.history.head?).map (·.data) = some (restOf x)
      · unfold commitOne
        rw [if_pos hcond]
        exact hcond.2
      · unfold commitOne
        rw [if_neg hcond]
        rfl
  exact ⟨hfix msg now items h,
    fun its => hfix msg2 now2 _ (fun it hit => hpost its it hit), rfl⟩

/-- Claim C8, instantiated at an already-committed singleton collection. -/
theorem c8_commit_noop_witness :
    (∀ it ∈ ([⟨"m1", "M", "x", [⟨1, ⟨"M", "x"⟩, none⟩]⟩] : List Item),
      (it.history.head?).map (·.data) = some (restOf it)) ∧
    handleCommit "msg" 4 [⟨"m1", "M", "x", [⟨1, ⟨"M", "x"⟩, none⟩]⟩] =
      [⟨"m1", "M", "x", [⟨1, ⟨"M", "x"⟩, none⟩]⟩] :=
  ⟨by decide, (c8_commit_noop "msg" "m2" 4 5 _ (by decide)).1⟩

/-! ### Claim C2: history invariants across operation sequences -/

/-- No two adjacent entries carry identical snapshot payloads. -/
def AdjacentDistinct (l : List ItemData) : Prop := l.Chain' (· ≠ ·)

theorem processExisting_mem (now : Nat) :
    ∀ (ex : List Item) (m : List (String × ItemData)) (x : Item),
      x ∈ (processExisting now ex m).1 →
      ∃ e ∈ ex, x = e ∨ ∃ d, x = updateItem now e d := by
  intro ex
  induction ex with
  | nil => intro m x hx; exact absurd hx (List.not_mem_nil x)
  | cons e es ih =>
    intro m x hx
    cases hm : mapGet m e.name with
    | some d =>
      rw [processExisting_cons_some now e es m d hm] at hx
      rcases List.mem_cons.mp hx with rfl | hx2
      · refine ⟨e, List.mem_cons_self e es, ?_⟩
        by_cases hc : e.code = d.code
        · rw [if_pos hc]; exact Or.inl rfl
        · rw [if_neg hc]; exact Or.inr ⟨d, rfl⟩
      · rcases ih (mapDelete m e.name) x hx2 with ⟨e', he', hor⟩
        exact ⟨e', List.mem_cons_of_mem e he', hor⟩
    | none =>
      rw [processExisting_cons_none now e es m hm] at hx
      rcases ih m x hx with ⟨e', he', hor⟩
      exact ⟨e', List.mem_cons_of_mem e he', hor⟩

theorem applyOp_preserves (now : Nat) (op : Op) (s : List Item)
    (hs : SortedHistories s) (hb : BoundedBelow s now) :
    SortedHistories (applyOp now op s) ∧
    (∀ t', now < t' → BoundedBelow (applyOp now op s) t') := by
  suffices hall : ∀ x ∈ applyOp now op s,
      x.history.Pairwise (fun a b => b.timestamp < a.timestamp) ∧
      ∀ h2 ∈ x.history, h2.timestamp ≤ now by
    exact ⟨fun x hx => (hall x hx).1,
      fun t' ht' x hx h2 hh2 => lt_of_le_of_lt ((hall x hx).2 h2 hh2) ht'⟩
  cases op with
  | commit msg =>
    intro x hx
    simp only [applyOp] at hx
    unfold handleCommit at hx
    by_cases hemp : s.isEmpty
    · rw [if_pos hemp] at hx
      exact ⟨hs x hx, fun h2 hh2 => le_of_lt (hb x hx h2 hh2)⟩
    · rw [if_neg hemp] at hx
      rcases List.mem_map.mp hx with ⟨y, hy, rfl⟩
      unfold commitOne
      by_cases hcond : y.history.length > 0 ∧
          (y.history.head?).map (·.data) = some (restOf y)
      · rw [if_pos hcond]
        exact ⟨hs y hy, fun h2 hh2 => le_of_lt (hb y hy h2 hh2)⟩
      · rw [if_neg hcond]
        dsimp only
        refine ⟨?_, ?_⟩
        · rw [List.pairwise_cons]
          exact ⟨fun b hb2 => hb y hy b hb2, hs y hy⟩
        · intro h2 hh2
          rcases List.mem_cons.mp hh2 with rfl | hh3
          · exact le_refl now
          · exact le_of_lt (hb y hy h2 hh3)
  | reconcile batch =>
    intro x hx
    simp only [applyOp, smartUpdate] at hx
    rcases List.mem_append.mp hx with hx1 | hx2
    · rcases processExisting_mem now s (buildMap batch) x hx1 with ⟨e, he, hxe | ⟨d, hxd⟩⟩
      · rw [hxe]
        exact ⟨hs e he, fun h2 hh2 => le_of_lt (hb e he h2 hh2)⟩
      · rw [hxd]
        simp only [updateItem]
        refine ⟨?_, ?_⟩
        · rw [List.pairwise_cons]
          exact ⟨fun b hb2 => hb e he b hb2, hs e he⟩
        · intro h2 hh2
          rcases List.mem_cons.mp hh2 with rfl | hh3
          · exact le_refl now
          · exact le_of_lt (hb e he h2 hh3)
    · rcases List.mem_map.mp hx2 with ⟨p, hp, rfl⟩
      exact ⟨List.Pairwise.nil, fun h2 hh2 => absurd hh2 (List.not_mem_nil h2)⟩
  | revert i ts =>
    intro x hx
    simp only [applyOp, revertItem] at hx
    rcases List.mem_map.mp hx with ⟨y, hy, rfl⟩
    by_cases hid : (y.id == i) = true
    · rw [if_pos hid]
      unfold revertOne
      cases hfind : y.history.find? (fun h2 => h2.timestamp == ts) with
      | none => exact ⟨hs y hy, fun h2 hh2 => le_of_lt (hb y hy h2 hh2)⟩
      | some e =>
        dsimp only
        refine ⟨?_, ?_⟩
        · rw [List.pairwise_cons]
          refine ⟨?_, ?_⟩
          · intro b hb2
            exact hb y hy b (List.mem_of_mem_filter hb2)
          · exact List.Pairwise.sublist (List.filter_sublist _) (hs y hy)
        · intro h2 hh2
          rcases List.mem_cons.mp hh2 with rfl | hh3
          · exact le_refl now
          · exact le_of_lt (hb y hy h2 (List.mem_of_mem_filter hh3))
    · rw [if_neg hid]
      exact ⟨hs y hy, fun h2 hh2 => le_of_lt (hb y hy h2 hh2)⟩

theorem applyOps_sorted :
    ∀ (ops : List (Nat × Op)) (s : List Item),
      SortedHistories s →
      ((ops.map Prod.fst).Pairwise (· < ·)) →
      (∀ t ∈ ops.map Prod.fst, BoundedBelow s t) →
      SortedHistories (applyOps ops s) := by
  intro ops
  induction ops with
  | nil => intro s hs _ _; exact hs
  | cons p rest ih =>
    intro s hs hchain hbound
    rcases p with ⟨t, op⟩
    rw [List.map_cons, List.pairwise_cons] at hchain
    have hbt : BoundedBelow s t :=
      hbound t (by rw [List.map_cons]; exact List.mem_cons_self _ _)
    have hstep := applyOp_preserves t op s hs hbt
    show SortedHistories (applyOps rest (applyOp t op s))
    refine ih (applyOp t op s) hstep.1 hchain.2 ?_
    intro t' ht'
    exact hstep.2 t' (hchain.1 t' ht')

/-- An unchanged single-item reconcile keeps the item with no new history
entry. -/
theorem smartUpdate_self_noop (now : Nat) (it : Item) :
    smartUpdate now [it] [restOf it] = [it] := by
  have hkey : ((restOf it).name, restOf it).1 = it.name := rfl
  have hget : mapGet [((restOf it).name, restOf it)] it.name = some (restOf it) := by
    rw [mapGet_cons, if_pos hkey]
  have hdel : mapDelete [((restOf it).name, restOf it)] it.name = [] := by
    rw [mapDelete_cons, if_pos hkey]
    rfl
  unfold smartUpdate
  rw [show buildMap [restOf it] = [((restOf it).name, restOf it)] from rfl,
    processExisting_cons_some now it [] _ (restOf it) hget, hdel,
    if_pos (show it.code = (restOf it).code from rfl)]
  rfl

/-- In a list built by `filterMap` from a name-distinct source followed by
any tail, `find?` by an item's name locates that item whenever the
producing function keeps it unchanged and preserves names. -/
theorem find?_filterMap_append (g : Item → Option Item) (it : Item)
    (hgit : g it = some it)
    (hgname : ∀ e x, g e = some x → x.name = e.name) :
    ∀ (ex : List Item) (rest : List Item), (ex.map Item.name).Nodup → it ∈ ex →
      ((ex.filterMap g) ++ rest).find? (fun x => x.name == it.name) = some it := by
  intro ex
  induction ex with
  | nil => intro rest _ hmem; cases hmem
  | cons e es ih =>
    intro rest hnd hmem
    rw [List.map_cons, List.nodup_cons] at hnd
    rcases List.mem_cons.mp hmem with rfl | hmem2
    · rw [List.filterMap_cons_some hgit, List.cons_append,
        List.find?_cons_of_pos _ (by simp)]
    · have hne : e.name ≠ it.name := fun hc =>
        hnd.1 (hc ▸ List.mem_map_of_mem Item.name hmem2)
      cases hge : g e with
      | none =>
        rw [List.filterMap_cons_none hge]
        exact ih rest hnd.2 hmem2
      | some x =>
        have hxname : x.name = e.name := hgname e x hge
        rw [List.filterMap_cons_some hge, List.cons_append,
          List.find?_cons_of_neg _ (by simp [hxname, hne])]
        exact ih rest hnd.2 hmem2

/-- Claim C2 counterexample: committing content `x` at time 1 and then
reconciling with a changed batch at time 2 yields a history whose two
adjacent entries carry the identical snapshot `⟨A, x⟩` — `smartUpdate`
always prepends the pre-update payload, even when it equals the top
history snapshot, so the no-adjacent-duplicates invariant fails. -/
theorem c2_adjacent_duplicate_counterexample :
    ((applyOps [(1, Op.commit "c"), (2, Op.reconcile [⟨"A", "y"⟩])]
        [⟨"a1", "A", "x", []⟩]).map (fun it => it.history.map (·.data))) =
      [[⟨"A", "x"⟩, ⟨"A", "x"⟩]] ∧
    ¬ AdjacentDistinct [⟨"A", "x"⟩, ⟨"A", "x"⟩] :=
  ⟨by decide, fun h => (List.chain'_cons.mp h).1 rfl⟩

/-- Claim C2 as amended: over any sequence of commit, reconcile and
revert operations applied at fresh, strictly increasing clock values,
every artifact's history stays sorted by strictly decreasing timestamp,
and an update whose content is unchanged appends no history entry: a
commit of an already-committed artifact is a no-op, and within a
reconcile of an arbitrary multi-artifact collection, every artifact
whose batch content equals its current content is found under its key
in the result entirely unchanged, history included; the
no-adjacent-duplicate-snapshots part of the original claim is dropped —
see the counterexample. -/
theorem c2_history_invariants (s : List Item) (ops : List (Nat × Op))
    (hs : SortedHistories s)
    (hchain : (ops.map Prod.fst).Pairwise (· < ·))
    (hbound : ∀ t ∈ ops.map Prod.fst, BoundedBelow s t) :
    SortedHistories (applyOps ops s) ∧
    (∀ (msg : String) (now : Nat) (it : Item),
      (it.history.head?).map (·.data) = some (restOf it) →
      commitOne msg now it = it) ∧
    (∀ (now : Nat) (ex : List Item) (batch : List ItemData) (it : Item)
      (d : ItemData),
      (ex.map Item.name).Nodup → (batch.map ItemData.name).Nodup →
      it ∈ ex → batch.find? (fun b => b.name == it.name) = some d →
      it.code = d.code →
      (smartUpdate now ex batch).find? (fun x => x.name == it.name) = some it) := by
  refine ⟨applyOps_sorted ops s hs hchain hbound, ?_, ?_⟩
  · intro msg now it hit
    rcases hh : it.history with _ | ⟨a, t⟩
    · rw [hh] at hit; simp at hit
    · unfold commitOne
      rw [if_pos ⟨by rw [hh]; simp, hit⟩]
  · intro now ex batch it d hex hb hmem hfind hcode
    have hwf : MapWf (batch.map (fun b => (b.name, b))) := by
      intro p hp
      rcases List.mem_map.mp hp with ⟨b, _, rfl⟩
      rfl
    have hgit : (mapGet (batch.map (fun b => (b.name, b))) it.name).map
        (fun d => if it.code = d.code then it else updateItem now it d) = some it := by
      rw [mapGet_map_pair, hfind, Option.map_some', if_pos hcode]
    have hgname : ∀ (e x : Item),
        (mapGet (batch.map (fun b => (b.name, b))) e.name).map
          (fun d => if e.code = d.code then e else updateItem now e d) = some x →
        x.name = e.name := by
      intro e x hge
      cases hm : mapGet (batch.map (fun b => (b.name, b))) e.name with
      | none => rw [hm] at hge; simp at hge
      | some dd =>
        rw [hm, Option.map_some'] at hge
        have hdd : dd.name = e.name := mapGet_wf_name hwf hm
        have hx := Option.some.inj hge
        by_cases hc : e.code = dd.code
        · rw [if_pos hc] at hx
          rw [← hx]
        · rw [if_neg hc] at hx
          rw [← hx]
          exact hdd
    unfold smartUpdate
    rw [buildMap_of_nodup batch hb, processExisting_of_nodup now ex _ hex]
    exact find?_filterMap_append _ it hgit hgname ex _ hex hmem

/-- Claim C2 as amended, instantiated: a commit at time 5 then a
reconcile at time 6 over an artifact with an existing entry at time 3
keeps the history strictly decreasing in timestamp, and inside a
two-artifact reconcile the artifact whose batch content is unchanged is
returned with its exact prior history while the other is updated. -/
theorem c2_history_invariants_witness :
    (SortedHistories [⟨"a1", "A", "x", [⟨3, ⟨"A", "w"⟩, none⟩]⟩] ∧
      (([(5, Op.commit "m"), (6, Op.reconcile [⟨"A", "z"⟩])].map
        Prod.fst).Pairwise (· < ·)) ∧
      (∀ t ∈ [(5, Op.commit "m"), (6, Op.reconcile [⟨"A", "z"⟩])].map Prod.fst,
        BoundedBelow [⟨"a1", "A", "x", [⟨3, ⟨"A", "w"⟩, none⟩]⟩] t)) ∧
    SortedHistories (applyOps [(5, Op.commit "m"), (6, Op.reconcile [⟨"A", "z"⟩])]
      [⟨"a1", "A", "x", [⟨3, ⟨"A", "w"⟩, none⟩]⟩]) ∧
    (smartUpdate 7
        [⟨"a1", "A", "x", [⟨3, ⟨"A", "w"⟩, none⟩]⟩, ⟨"b1", "B", "y", []⟩]
        [⟨"A", "x"⟩, ⟨"B", "z"⟩]).find? (fun x => x.name == "A") =
      some ⟨"a1", "A", "x", [⟨3, ⟨"A", "w"⟩, none⟩]⟩ :=
  ⟨⟨by decide, by decide, by decide⟩,
    (c2_history_invariants _ _ (by decide) (by decide) (by decide)).1,
    by
      have h := (c2_history_invariants
        [⟨"a1", "A", "x", [⟨3, ⟨"A", "w"⟩, none⟩]⟩]
        [(5, Op.commit "m"), (6, Op.reconcile [⟨"A", "z"⟩])]
        (by decide) (by decide) (by decide)).2.2
        7 [⟨"a1", "A", "x", [⟨3, ⟨"A", "w"⟩, none⟩]⟩, ⟨"b1", "B", "y", []⟩]
        [⟨"A", "x"⟩, ⟨"B", "z"⟩]
        ⟨"a1", "A", "x", [⟨3, ⟨"A", "w"⟩, none⟩]⟩ ⟨"A", "x"⟩
        (by decide) (by decide) (by decide) (by decide) (by decide)
      exact h⟩

/-! ### Naming and grouping heuristics
(`generateControllers` in `src/services/geminiService.ts`)

Lean's built-in `String` functions are not kernel-computable, so the
JavaScript string operations are re-implemented over `String.data`
(`List Char`) with structural recursion; `toLowerCase`/`toUpperCase` are
modelled on the ASCII range, which covers every string these heuristics
touch. -/

/-- ASCII `toLowerCase` on one character. -/
def lowerChar (c : Char) : Char :=
  if 65 ≤ c.toNat ∧ c.toNat ≤ 90 then Char.ofNat (c.toNat + 32) else c

/-- ASCII `toUpperCase` on one character. -/
def upperChar (c : Char) : Char :=
  if 97 ≤ c.toNat ∧ c.toNat ≤ 122 then Char.ofNat (c.toNat - 32) else c

/-- JavaScript `toLowerCase` (ASCII model). -/
def lowerStr (s : String) : String := String.mk (s.data.map lowerChar)

/-- JavaScript `toUpperCase` (ASCII model). -/
def upperStr (s : String) : String := String.mk (s.data.map upperChar)

/-- JavaScript `split` on a one-character separator. -/
def splitCharAux (sep : Char) : List Char → List (List Char)
  | [] => [[]]
  | c :: cs =>
    match splitCharAux sep cs with
    | [] => [[]]
    | g :: gs => if c == sep then [] :: g :: gs else (c :: g) :: gs

/-- `endpoint.split('/')`. -/
def splitOnSlash (s : String) : List String :=
  (splitCharAux (Char.ofNat 47) s.data).map String.mk

/-- JavaScript `endsWith`. -/
def endsWithStr (s suffix : String) : Bool := suffix.data.isSuffixOf s.data

/-- JavaScript `startsWith`. -/
def startsWithStr (s pre : String) : Bool := pre.data.isPrefixOf s.data

/-- JavaScript `slice(0, -n)`. -/
def dropRightStr (s : String) (n : Nat) : String :=
  String.mk (s.data.take (s.data.length - n))

/-- JavaScript `includes` (substring test). -/
def containsStr (s sub : String) : Bool :=
  s.data.tails.any (fun t => sub.data.isPrefixOf t)

/-- The de-pluralization step of `getBaseNameFromEndpoint`
(`geminiService.ts`, lines 202-207): `ies` becomes `y`; otherwise any
trailing `s` is dropped — the source has no `ss` exception. -/
def singularize (name : String) : String :=
  if endsWithStr name "ies" then dropRightStr name 3 ++ "y"
  else if endsWithStr name "s" then dropRightStr name 1
  else name

/-- `getBaseNameFromEndpoint` (`geminiService.ts`, lines 198-211): split
the endpoint path on `/`, drop empty segments, the literal `api` segment
and `:`-parameter segments, then singularize the first remaining
segment. -/
def getBaseNameFromEndpoint (endpoint : String) : Option String :=
  let parts := (splitOnSlash endpoint).filter
    (fun p => !(p == "") && !(p == "api") && !(startsWithStr p ":"))
  match parts with
  | [] => none
  | name :: _ => some (singularize name)

/-- A schema artifact.  Only the `name` field participates in the
controller-grouping heuristics, so the embedding carries just that
field of the `Model` record of `types.ts`. -/
structure Model where
  name : String
deriving DecidableEq

/-- An endpoint artifact; the fields of the `Api` record of `types.ts`
that the grouping heuristics and the graph extractor read (`id`, `name`,
`endpoint`, `method`, `code`). -/
structure ApiItem where
  id : String
  name : String
  endpoint : String
  method : String
  code : String
deriving DecidableEq

/-- `model.name.charAt(0).toLowerCase() + model.name.slice(1)`. -/
def lowerFirst (s : String) : String :=
  match s.data with
  | [] => ""
  | c :: cs => String.mk (lowerChar c :: cs)

/-- The controller-file base-name assignment of `generateControllers`
(`geminiService.ts`, lines 214-239): strategy 1 matches the singularized
endpoint segment against `model.name.toLowerCase()`; strategy 2 looks
for a model name inside the endpoint's display name (both lowercased);
otherwise the fixed fallback `general`. -/
def controllerFileBaseName (models : List Model) (api : ApiItem) : String :=
  let strat1 : Option String :=
    match getBaseNameFromEndpoint api.endpoint with
    | some baseName =>
      match models.find? (fun m => lowerStr m.name == baseName) with
      | some m => some (lowerFirst m.name)
      | none => none
    | none => none
  let strat2 : Option String :=
    match strat1 with
    | some x => some x
    | none =>
      (models.find? (fun m =>
        containsStr (lowerStr api.name) (lowerStr m.name))).map
        (fun m => lowerFirst m.name)
  match strat2 with
  | some x => x
  | none => "general"

/-- `` `${controllerFileBaseName}Controller.js` ``. -/
def controllerNameFor (models : List Model) (api : ApiItem) : String :=
  controllerFileBaseName models api ++ "Controller.js"

/-- The keys of `controllersMap` in insertion order: one handler group
per distinct controller file name, first-occurrence order. -/
def controllerGroupKeys (models : List Model) (apis : List ApiItem) : List String :=
  apis.foldl (fun acc api =>
    let n := controllerNameFor models api
    if acc.contains n then acc else acc ++ [n]) []

/-- Claim C6 counterexample: the source singularizer has no `ss`
exception — `/api/address` yields the base name `addres`, where the
claim requires the segment to stay unchanged — and schema-name matching
lowercases only the model name, so the uppercase path `/api/Categories`
falls through to the `general` group instead of matching `Category`
case-insensitively. -/
theorem c6_singularize_counterexample :
    getBaseNameFromEndpoint "/api/address" = some "addres" ∧
    endsWithStr "address" "ss" = true ∧
    "addres" ≠ "address" ∧
    controllerFileBaseName [⟨"Category"⟩]
      ⟨"a1", "x", "/api/Categories", "GET", "c"⟩ = "general" :=
  ⟨by decide, by decide, by decide, by decide⟩

/-- Claim C6 as amended: handler-group key derivation singularizes the
first endpoint-path segment (after stripping empty, `api` and
`:`-parameter segments): suffix `ies` is replaced by `y`; otherwise a
trailing `s` is always dropped (even after `ss`); otherwise the segment
is unchanged.  The result is compared against the lowercased schema
name (so only an already-lowercase segment can match).  In particular
`/api/categories` with schema `Category` lands in the `category`-keyed
handler group, i.e. controller file `categoryController.js`. -/
theorem c6_singularize_grouping :
    (∀ s : String, endsWithStr s "ies" = true →
      singularize s = dropRightStr s 3 ++ "y") ∧
    (∀ s : String, endsWithStr s "ies" = false → endsWithStr s "s" = true →
      singularize s = dropRightStr s 1) ∧
    (∀ s : String, endsWithStr s "ies" = false → endsWithStr s "s" = false →
      singularize s = s) ∧
    getBaseNameFromEndpoint "/api/categories" = some "category" ∧
    controllerFileBaseName [⟨"Category"⟩]
      ⟨"a1", "getCategories", "/api/categories", "GET", "c"⟩ = "category" ∧
    controllerGroupKeys [⟨"Category"⟩]
      [⟨"a1", "getCategories", "/api/categories", "GET", "c"⟩] =
      ["categoryController.js"] := by
  refine ⟨?_, ?_, ?_, by decide, by decide, by decide⟩
  · intro s h
    unfold singularize
    rw [if_pos h]
  · intro s h1 h2
    unfold singularize
    rw [if_neg (by simp [h1]), if_pos h2]
  · intro s h1 h2
    unfold singularize
    rw [if_neg (by simp [h1]), if_neg (by simp [h2])]

/-- Claim C6 as amended, instantiated on the three singularization
shapes. -/
theorem c6_singularize_grouping_witness :
    (endsWithStr "categories" "ies" = true ∧
      singularize "categories" = dropRightStr "categories" 3 ++ "y") ∧
    (endsWithStr "address" "ies" = false ∧ endsWithStr "address" "s" = true ∧
      singularize "address" = dropRightStr "address" 1) ∧
    (endsWithStr "user" "ies" = false ∧ endsWithStr "user" "s" = false ∧
      singularize "user" = "user") :=
  ⟨⟨by decide, c6_singularize_grouping.1 "categories" (by decide)⟩,
   ⟨by decide, by decide, c6_singularize_grouping.2.1 "address" (by decide) (by decide)⟩,
   ⟨by decide, by decide, c6_singularize_grouping.2.2.1 "user" (by decide) (by decide)⟩⟩

/-! ### Dependency-graph extraction: route-registration scanning
(`Visualizer.tsx`, lines 133-149)

The regex `router\.(get|post|put|delete|patch)\(['"
backtick]( .*? )['"backtick]/g` (see the source) is modelled as a
left-to-right scanner: at each position it tries to match the literal
`router.`, one verb, `(`, an opening quote of any of the three kinds,
then the lazy capture up to the nearest quote character (`.` does not
cross line terminators); on failure the start position advances one
character, on success scanning resumes after the match, exactly as
`matchAll` does. -/

/-- The character class `['"` backtick `]`. -/
def isQuoteChar (c : Char) : Bool :=
  c == Char.ofNat 39 || c == Char.ofNat 34 || c == Char.ofNat 96

/-- The alternation `get|post|put|delete|patch`, in order. -/
def routeVerbs : List String := ["get", "post", "put", "delete", "patch"]

/-- The lazy capture `(.*?)` followed by the closing quote class:
consume characters up to the nearest quote; fail on a line terminator or
end of input. -/
def takeUntilQuote : List Char → Option (List Char × List Char)
  | [] => none
  | c :: cs =>
    if isQuoteChar c then some ([], cs)
    else if c == Char.ofNat 10 || c == Char.ofNat 13 then none
    else (takeUntilQuote cs).map (fun r => (c :: r.1, r.2))

/-- Try one verb alternative after the `router.` literal: verb, `(`,
opening quote, lazy capture, closing quote. -/
def tryVerb (rest : List Char) (v : String) : Option (String × String × List Char) :=
  if (v.data ++ [Char.ofNat 40]).isPrefixOf rest then
    match rest.drop (v.data.length + 1) with
    | q :: r4 =>
      if isQuoteChar q then (takeUntilQuote r4).map (fun r => (v, String.mk r.1, r.2))
      else none
    | [] => none
  else none

/-- Try to match the whole pattern at the current position; returns the
verb, the captured path and the remaining input after the match. -/
def tryMatchAt (cs : List Char) : Option (String × String × List Char) :=
  if ("router.".data).isPrefixOf cs then routeVerbs.findSome? (tryVerb (cs.drop 7))
  else none

theorem takeUntilQuote_length : ∀ (cs a r : List Char),
    takeUntilQuote cs = some (a, r) → r.length < cs.length := by
  intro cs
  induction cs with
  | nil => intro a r h; exact absurd h (by simp [takeUntilQuote])
  | cons c cs ih =>
    intro a r h
    unfold takeUntilQuote at h
    by_cases hq : isQuoteChar c = true
    · rw [if_pos hq] at h
      cases h
      exact Nat.lt_succ_self _
    · rw [if_neg hq] at h
      by_cases hn : (c == Char.ofNat 10 || c == Char.ofNat 13) = true
      · rw [if_pos hn] at h
        exact absurd h (by simp)
      · rw [if_neg hn] at h
        rcases hr : takeUntilQuote cs with _ | ⟨a2, r2⟩
        · rw [hr] at h
          exact absurd h (by simp)
        · rw [hr] at h
          simp only [Option.map_some'] at h
          have hr2 : r2 = r := congrArg Prod.snd (Option.some.inj h)
          rw [← hr2]
          exact Nat.lt_trans (ih a2 r2 hr) (Nat.lt_succ_self _)

theorem tryVerb_length (rest : List Char) (vb : String) (v p : String)
    (after : List Char) (h : tryVerb rest vb = some (v, p, after)) :
    after.length < rest.length := by
  unfold tryVerb at h
  by_cases hpre : ((vb.data ++ [Char.ofNat 40]).isPrefixOf rest) = true
  · rw [if_pos hpre] at h
    rcases hdrop : rest.drop (vb.data.length + 1) with _ | ⟨q, r4⟩
    · rw [hdrop] at h
      exact absurd h (by simp)
    · rw [hdrop] at h
      dsimp only at h
      by_cases hqc : isQuoteChar q = true
      · rw [if_pos hqc] at h
        rcases ht : takeUntilQuote r4 with _ | ⟨a2, r2⟩
        · rw [ht] at h
          exact absurd h (by simp)
        · rw [ht] at h
          simp only [Option.map_some'] at h
          have hr2 : r2 = after :=
            congrArg (fun t : String × String × List Char => t.2.2) (Option.some.inj h)
          rw [← hr2]
          have h1 : r2.length < r4.length := takeUntilQuote_length r4 a2 r2 ht
          have h2 : (q :: r4).length ≤ rest.length := by
            rw [← hdrop, List.length_drop]
            exact Nat.sub_le _ _
          have h3 : r4.length < (q :: r4).length := Nat.lt_succ_self _
          exact Nat.lt_of_lt_of_le (Nat.lt_trans h1 h3) h2

      · rw [if_neg hqc] at h
        exact absurd h (by simp)
  · rw [if_neg hpre] at h
    exact absurd h (by simp)

theorem tryMatchAt_length (cs : List Char) (v p : String) (after : List Char)
    (h : tryMatchAt cs = some (v, p, after)) : after.length < cs.length := by
  unfold tryMatchAt at h
  by_cases hpre : (("router.".data).isPrefixOf cs) = true
  · rw [if_pos hpre] at h
    rcases List.findSome?_eq_some_iff.mp h with ⟨l1, vb, l2, _, hf, _⟩
    have h1 : after.length < (cs.drop 7).length := tryVerb_length (cs.drop 7) vb v p after hf
    have h2 : (cs.drop 7).length ≤ cs.length := by
      rw [List.length_drop]
      exact Nat.sub_le _ _
    exact Nat.lt_of_lt_of_le h1 h2
  · rw [if_neg hpre] at h
    exact absurd h (by simp)

/-- The `matchAll` scan, with explicit fuel so that the definition stays
kernel-computable; `scanRoutes` supplies `length + 1` fuel, which always
suffices because every step consumes at least one character
(`scanAux_fuel_irrelevant`). -/
def scanAux : Nat → List Char → List (String × String)
  | 0, _ => []
  | _ + 1, [] => []
  | fuel + 1, c :: cs =>
    match tryMatchAt (c :: cs) with
    | some (v, p, after) => (v, p) :: scanAux fuel after
    | none => scanAux fuel cs

/-- Any fuel beyond the input length computes the same scan. -/
theorem scanAux_fuel_irrelevant : ∀ (n : Nat) (l : List Char) (f1 f2 : Nat),
    l.length ≤ n → l.length < f1 → l.length < f2 →
    scanAux f1 l = scanAux f2 l := by
  intro n
  induction n with
  | zero =>
    intro l f1 f2 hn h1 h2
    have hl : l = [] := List.length_eq_zero.mp (Nat.le_zero.mp hn)
    subst hl
    cases f1 with
    | zero => exact absurd h1 (Nat.not_lt_zero _)
    | succ f1 =>
      cases f2 with
      | zero => exact absurd h2 (Nat.not_lt_zero _)
      | succ f2 => rfl
  | succ n ih =>
    intro l f1 f2 hn h1 h2
    cases l with
    | nil =>
      cases f1 with
      | zero => exact absurd h1 (Nat.not_lt_zero _)
      | succ f1 =>
        cases f2 with
        | zero => exact absurd h2 (Nat.not_lt_zero _)
        | succ f2 => rfl
    | cons c cs =>
      cases f1 with
      | zero => exact absurd h1 (Nat.not_lt_zero _)
      | succ f1 =>
        cases f2 with
        | zero => exact absurd h2 (Nat.not_lt_zero _)
        | succ f2 =>
          rw [List.length_cons] at hn h1 h2
          simp only [scanAux]
          cases hm : tryMatchAt (c :: cs) with
          | some r =>
            rcases r with ⟨v, p, after⟩
            have hlen : after.length < cs.length + 1 :=
              tryMatchAt_length (c :: cs) v p after hm
            exact congrArg (fun t => (v, p) :: t)
              (ih after f1 f2 (by omega) (by omega) (by omega))
          | none =>
            exact ih cs f1 f2 (by omega) (by omega) (by omega)

/-- The full `matchAll` scan over a router's content. -/
def scanRoutes (code : String) : List (String × String) :=
  scanAux (code.data.length + 1) code.data

/-- A router artifact (`Route` of `types.ts`): `{id, name, code}` plus
history, which the graph extractor never reads. -/
structure RouteItem where
  id : String
  name : String
  code : String
deriving DecidableEq

/-- A visualizer edge `{id, source, target}`. -/
structure GraphEdge where
  id : String
  source : String
  target : String
deriving DecidableEq

/-- The `Routes -> APIs` edge pass of the visualizer (`Visualizer.tsx`,
lines 133-149): for each route, look its node up by name, scan its
content for route-registration statements, and for each statement whose
upper-cased verb and path equal a live endpoint's `method` and
`endpoint`, push one edge from the route node to that endpoint node.
The two lookup maps are `routeNodeMapByName` and `apiNodeMapById` from
lines 97-100. -/
def routeApiEdges (routes : List RouteItem) (allApis : List ApiItem) : List GraphEdge :=
  let routeNodeMapByName :=
    routes.foldl (fun m r => mapSet m r.name r.id) ([] : List (String × String))
  let apiNodeMapById :=
    allApis.foldl (fun m a => mapSet m a.id a.id) ([] : List (String × String))
  routes.flatMap (fun route =>
    match mapGet routeNodeMapByName route.name with
    | none => []
    | some srcId =>
      (scanRoutes route.code).flatMap (fun md =>
        match allApis.find? (fun api =>
            api.method == upperStr md.1 && api.endpoint == md.2) with
        | some targetApi =>
          match mapGet apiNodeMapById targetApi.id with
          | some tgtId => [⟨srcId ++ "-" ++ tgtId, srcId, tgtId⟩]
          | none => []
        | none => []))

theorem mapGet_apiIdMap (apis : List ApiItem) :
    ∀ (m : List (String × String)) (k : String),
      mapGet (apis.foldl (fun m a => mapSet m a.id a.id) m) k =
        apis.foldl (fun acc a => if a.id = k then some a.id else acc) (mapGet m k) := by
  induction apis with
  | nil => intro m k; rfl
  | cons a l ih => intro m k; rw [List.foldl_cons, List.foldl_cons, ih, mapGet_set]

theorem apiIdMap_isSome (apis : List ApiItem) :
    ∀ (o : Option String) (k : String),
      (apis.foldl (fun acc a => if a.id = k then some a.id else acc) o).isSome =
        (o.isSome || apis.any (fun a => a.id == k)) := by
  induction apis with
  | nil => intro o k; simp
  | cons a l ih =>
    intro o k
    rw [List.foldl_cons, ih, List.any_cons]
    by_cases h : a.id = k
    · simp [h]
    · simp [h, beq_eq_false_iff_ne.mpr h]

/-- `router.get('/api/users', userController.listUsers)`. -/
def exRouterContent : String :=
  "router.get(" ++ String.mk [Char.ofNat 39] ++ "/api/users" ++
    String.mk [Char.ofNat 39] ++ ", userController.listUsers)"

/-- Claim C7: the scan of the example router content finds exactly the
statement `(get, /api/users)`; against a live endpoint `GET /api/users`
the extractor produces exactly one edge from the router node to that
endpoint node; against a non-matching endpoint set it produces no edge
and no error; and in general, for a single router, the extractor emits
exactly one edge per scanned statement whose verb and path match a live
endpoint — unmatched statements yield nothing, so extraction only
under-approximates and never fails. -/
theorem c7_route_api_edges :
    scanRoutes exRouterContent = [("get", "/api/users")] ∧
    routeApiEdges [⟨"r1", "userRoutes.js", exRouterContent⟩]
      [⟨"a1", "listUsers", "/api/users", "GET", "h"⟩] =
      [⟨"r1-a1", "r1", "a1"⟩] ∧
    routeApiEdges [⟨"r1", "userRoutes.js", exRouterContent⟩]
      [⟨"a2", "otherApi", "/api/other", "GET", "h"⟩] = [] ∧
    (∀ (route : RouteItem) (apis : List ApiItem),
      (routeApiEdges [route] apis).length =
        (scanRoutes route.code).countP (fun md =>
          (apis.find? (fun api =>
            api.method == upperStr md.1 && api.endpoint == md.2)).isSome)) := by
  refine ⟨by decide, by decide, by decide, ?_⟩
  intro route apis
  show (List.flatMap [route] _).length = _
  rw [List.flatMap_cons, List.flatMap_nil, List.append_nil]
  have hsrc : mapGet (List.foldl
      (fun (m : List (String × String)) (r : RouteItem) => mapSet m r.name r.id)
      [] [route]) route.name = some route.id := by
    rw [show List.foldl
        (fun (m : List (String × String)) (r : RouteItem) => mapSet m r.name r.id)
        [] [route] = [(route.name, route.id)] from rfl, mapGet_cons, if_pos rfl]
  rw [hsrc]
  dsimp only
  generalize scanRoutes route.code = L
  induction L with
  | nil => rfl
  | cons md L ihL =>
    rw [List.flatMap_cons, List.length_append, ihL, List.countP_cons]
    have hbody : (match apis.find? (fun api : ApiItem =>
        api.method == upperStr md.1 && api.endpoint == md.2) with
      | some targetApi =>
        match mapGet (List.foldl
            (fun (m : List (String × String)) (a : ApiItem) => mapSet m a.id a.id)
            [] apis) targetApi.id with
        | some tgtId =>
          [(⟨route.id ++ "-" ++ tgtId, route.id, tgtId⟩ : GraphEdge)]
        | none => []
      | none => []).length =
      if ((apis.find? (fun api : ApiItem =>
          api.method == upperStr md.1 && api.endpoint == md.2)).isSome = true)
        then 1 else 0 := by
      rcases hfind : apis.find? (fun api : ApiItem =>
          api.method == upperStr md.1 && api.endpoint == md.2) with _ | api
      · rfl
      · dsimp only
        have hmem := List.mem_of_find?_eq_some hfind
        have hsome : (mapGet (List.foldl
            (fun (m : List (String × String)) (a : ApiItem) => mapSet m a.id a.id)
            [] apis) api.id).isSome = true := by
          rw [mapGet_apiIdMap, apiIdMap_isSome,
            show mapGet ([] : List (String × String)) api.id = none from rfl]
          simp only [Option.isSome_none, Bool.false_or]
          exact List.any_eq_true.mpr ⟨api, hmem, by simp⟩
        rcases htgt : mapGet (List.foldl
            (fun (m : List (String × String)) (a : ApiItem) => mapSet m a.id a.id)
            [] apis) api.id with _ | tgd
        · rw [htgt] at hsome
          exact absurd hsome (by simp)
        · rfl
    rw [hbody, Nat.add_comm]

/-! ### Endpoint collections (`ApisWindow.tsx`) -/

/-- An endpoint collection (`ApiCollection` of `types.ts`). -/
structure ApiCollection where
  id : String
  name : String
  apis : List ApiItem
deriving DecidableEq

/-- `UNCATEGORIZED_COLLECTION_NAME` — the distinguished catch-all. -/
def UNCATEGORIZED : String := "Uncategorized"

/-- `handleConfirmCollectionDelete` (`ApisWindow.tsx`, lines 188-231):
remove the collection with the given id and append its endpoints to the
first collection named `Uncategorized`, creating one when absent. -/
def confirmCollectionDelete (now : Nat) (collectionIdToDelete : String)
    (prev : List ApiCollection) : List ApiCollection :=
  match prev.find? (fun c => c.id == collectionIdToDelete) with
  | none => prev
  | some collectionToDelete =>
    let apisToMove := collectionToDelete.apis
    let remaining := prev.filter (fun c => c.id != collectionIdToDelete)
    match remaining.find? (fun c => c.name == UNCATEGORIZED) with
    | some u =>
      remaining.map (fun c =>
        if c.id == u.id then { c with apis := c.apis ++ apisToMove } else c)
    | none =>
      remaining ++
        [{ id := ("coll-uncategorized-" ++ natToStr now),
           name := UNCATEGORIZED, apis := apisToMove }]

/-- `requestDeleteCollection` (lines 172-182) composed with the confirm
handler: the request is refused — nothing happens — when the target is
missing or is the catch-all collection. -/
def deleteCollection (now : Nat) (cid : String) (cols : List ApiCollection) :
    List ApiCollection :=
  match cols.find? (fun c => c.id == cid) with
  | none => cols
  | some c =>
    if c.name == UNCATEGORIZED then cols else confirmCollectionDelete now cid cols

/-- The rename flow (`handleRenameCollection`, line 167, guarded by the
double-click handler of lines 331-335, which opens the rename input only
for collections not named `Uncategorized`). -/
def renameCollection (cid newName : String) (cols : List ApiCollection) :
    List ApiCollection :=
  match cols.find? (fun c => c.id == cid) with
  | none => cols
  | some c =>
    if c.name == UNCATEGORIZED then cols
    else cols.map (fun c2 =>
      if c2.id == cid then
        { c2 with name := if newName == "" then "Untitled" else newName }
      else c2)

theorem find?_decomp {α : Type} (p : α → Bool) :
    ∀ (l : List α) (a : α), l.find? p = some a →
      ∃ l1 l2, l = l1 ++ a :: l2 ∧ ∀ x ∈ l1, p x = false := by
  intro l
  induction l with
  | nil => intro a h; exact absurd h (by simp)
  | cons b l ih =>
    intro a h
    by_cases hb : p b = true
    · rw [List.find?_cons_of_pos _ hb] at h
      obtain rfl : b = a := Option.some.inj h
      exact ⟨[], l, rfl, fun x hx => absurd hx (List.not_mem_nil x)⟩
    · rw [List.find?_cons_of_neg _ hb] at h
      rcases ih a h with ⟨l1, l2, rfl, hl1⟩
      refine ⟨b :: l1, l2, rfl, ?_⟩
      intro x hx
      rcases List.mem_cons.mp hx with rfl | hx2
      · exact eq_false_of_ne_true hb
      · exact hl1 x hx2

theorem perm_cons_block {α : Type} (C L1 L2 : List α) :
    (C ++ (L1 ++ L2)).Perm (L1 ++ (C ++ L2)) := by
  rw [(List.append_assoc C L1 L2).symm, (List.append_assoc L1 C L2).symm]
  exact List.perm_append_comm.append_right L2

theorem append_perm_shuffle {α : Type} (x y z : List α) :
    ((x ++ y) ++ z).Perm (x ++ (z ++ y)) := by
  refine List.Perm.trans List.perm_append_comm ?_
  rw [(List.append_assoc z x y).symm, (List.append_assoc x z y).symm]
  exact List.perm_append_comm.append_right y

/-- Claim C9: deleting any endpoint collection other than the catch-all
removes that collection and moves every one of its endpoints into the
catch-all — the multiset of endpoints across collections is preserved
(none lost or duplicated) and the deleted collection's endpoints appear
as a suffix of the catch-all's — while the delete and rename operations
refuse to act on the catch-all itself, leaving the state unchanged.
Collection ids are assumed pairwise distinct, as the data model assigns
them once at creation. -/
theorem c9_collection_delete_rename (now : Nat) (cid : String)
    (cols : List ApiCollection) (c : ApiCollection)
    (hfind : cols.find? (fun x => x.id == cid) = some c)
    (hname : ¬ c.name = UNCATEGORIZED)
    (hids : (cols.map ApiCollection.id).Nodup) :
    c ∉ deleteCollection now cid cols ∧
    ((deleteCollection now cid cols).flatMap ApiCollection.apis).Perm
      (cols.flatMap ApiCollection.apis) ∧
    (∃ u ∈ deleteCollection now cid cols,
      u.name = UNCATEGORIZED ∧ c.apis <:+ u.apis) ∧
    (∀ (now2 : Nat) (cid2 : String) (cols2 : List ApiCollection)
      (c2 : ApiCollection),
      cols2.find? (fun x => x.id == cid2) = some c2 → c2.name = UNCATEGORIZED →
      deleteCollection now2 cid2 cols2 = cols2) ∧
    (∀ (newName cid2 : String) (cols2 : List ApiCollection) (c2 : ApiCollection),
      cols2.find? (fun x => x.id == cid2) = some c2 → c2.name = UNCATEGORIZED →
      renameCollection cid2 newName cols2 = cols2) := by
  have hcid : c.id = cid := by simpa using List.find?_some hfind
  have hguard1 : ∀ (now2 : Nat) (cid2 : String) (cols2 : List ApiCollection)
      (c2 : ApiCollection), cols2.find? (fun x => x.id == cid2) = some c2 →
      c2.name = UNCATEGORIZED → deleteCollection now2 cid2 cols2 = cols2 := by
    intro now2 cid2 cols2 c2 hf2 hn2
    unfold deleteCollection
    rw [hf2]
    dsimp only
    rw [if_pos (by simp [hn2])]
  have hguard2 : ∀ (newName cid2 : String) (cols2 : List ApiCollection)
      (c2 : ApiCollection), cols2.find? (fun x => x.id == cid2) = some c2 →
      c2.name = UNCATEGORIZED → renameCollection cid2 newName cols2 = cols2 := by
    intro newName cid2 cols2 c2 hf2 hn2
    unfold renameCollection
    rw [hf2]
    dsimp only
    rw [if_pos (by simp [hn2])]
  have hdel : deleteCollection now cid cols = confirmCollectionDelete now cid cols := by
    unfold deleteCollection
    rw [hfind]
    dsimp only
    rw [if_neg (by simp [hname])]
  rcases find?_decomp _ cols c hfind with ⟨l1, l2, rfl, hl1⟩
  have hl1id : ∀ x ∈ l1, x.id ≠ cid := by
    intro x hx
    simpa using hl1 x hx
  have hl2id : ∀ x ∈ l2, x.id ≠ cid := by
    intro x hx hcontra
    rw [List.map_append, List.map_cons] at hids
    have h2 := (List.nodup_append.mp hids).2.1
    have h3 := (List.nodup_cons.mp h2).1
    have h4 : x.id ∈ l2.map ApiCollection.id := List.mem_map_of_mem _ hx
    rw [hcontra, ← hcid] at h4
    exact h3 h4
  have hrem : (l1 ++ c :: l2).filter (fun x => x.id != cid) = l1 ++ l2 := by
    rw [List.filter_append, List.filter_cons_of_neg (by simp [hcid]),
      List.filter_eq_self.mpr (fun x hx => by simp [hl1id x hx]),
      List.filter_eq_self.mpr (fun x hx => by simp [hl2id x hx])]
  have hmain : c ∉ deleteCollection now cid (l1 ++ c :: l2) ∧
      ((deleteCollection now cid (l1 ++ c :: l2)).flatMap ApiCollection.apis).Perm
        ((l1 ++ c :: l2).flatMap ApiCollection.apis) ∧
      (∃ u ∈ deleteCollection now cid (l1 ++ c :: l2),
        u.name = UNCATEGORIZED ∧ c.apis <:+ u.apis) := by
    rw [hdel]
    unfold confirmCollectionDelete
    rw [hfind]
    dsimp only
    rw [hrem]
    rcases hu : (l1 ++ l2).find? (fun x => x.name == UNCATEGORIZED) with _ | u
    · rw [hu]
      dsimp only
      refine ⟨?_, ?_, ?_⟩
      · intro hc
        rcases List.mem_append.mp hc with hc1 | hc2
        · rcases List.mem_append.mp hc1 with hc3 | hc4
          · exact hl1id c hc3 hcid
          · exact hl2id c hc4 hcid
        · have hceq := List.mem_singleton.mp hc2
          exact hname (congrArg ApiCollection.name hceq)
      · simp only [List.flatMap_append, List.flatMap_cons, List.flatMap_nil,
          List.append_nil]
        exact append_perm_shuffle _ _ _
      · exact ⟨⟨("coll-uncategorized-" ++ natToStr now), UNCATEGORIZED, c.apis⟩,
          List.mem_append_right _ (List.mem_singleton_self _), rfl,
          List.suffix_refl c.apis⟩
    · rw [hu]
      dsimp only
      have hu_name : u.name = UNCATEGORIZED := by simpa using List.find?_some hu
      have hsub : (l1 ++ l2).Sublist (l1 ++ c :: l2) :=
        (List.sublist_cons_self c l2).append_left l1
      have hremids : ((l1 ++ l2).map ApiCollection.id).Nodup :=
        List.Nodup.sublist (hsub.map ApiCollection.id) hids
      rcases find?_decomp _ (l1 ++ l2) u hu with ⟨r1, r2, hr, _⟩
      have hruids : ((r1 ++ u :: r2).map ApiCollection.id).Nodup := by
        rw [← hr]
        exact hremids
      have hr1id : ∀ x ∈ r1, x.id ≠ u.id := by
        intro x hx hcontra
        rw [List.map_append, List.map_cons] at hruids
        have hdisj := (List.nodup_append.mp hruids).2.2
        exact hdisj (List.mem_map_of_mem _ hx)
          (by rw [← hcontra]; exact List.mem_cons_self _ _)
      have hr2id : ∀ x ∈ r2, x.id ≠ u.id := by
        intro x hx hcontra
        rw [List.map_append, List.map_cons] at hruids
        have h2 := (List.nodup_append.mp hruids).2.1
        have h3 := (List.nodup_cons.mp h2).1
        have h4 : x.id ∈ r2.map ApiCollection.id := List.mem_map_of_mem _ hx
        rw [hcontra] at h4
        exact h3 h4
      have hmapr1 : ∀ x ∈ r1, (fun x : ApiCollection =>
          if x.id == u.id then { x with apis := x.apis ++ c.apis } else x) x =
          (fun x : ApiCollection => x) x := by
        intro x hx
        show (if x.id == u.id then _ else x) = x
        rw [if_neg (by simp [hr1id x hx])]
      have hmapr2 : ∀ x ∈ r2, (fun x : ApiCollection =>
          if x.id == u.id then { x with apis := x.apis ++ c.apis } else x) x =
          (fun x : ApiCollection => x) x := by
        intro x hx
        show (if x.id == u.id then _ else x) = x
        rw [if_neg (by simp [hr2id x hx])]
      have hmap : (l1 ++ l2).map (fun x =>
          if x.id == u.id then { x with apis := x.apis ++ c.apis } else x) =
          r1 ++ ({ u with apis := u.apis ++ c.apis }) :: r2 := by
        rw [hr, List.map_append, List.map_cons, List.map_congr_left hmapr1,
          List.map_id', List.map_congr_left hmapr2, List.map_id']
        show r1 ++ (if u.id == u.id then _ else u) :: r2 = _
        rw [if_pos (by simp)]
      refine ⟨?_, ?_, ?_⟩
      · rw [hmap]
        intro hc
        rcases List.mem_append.mp hc with hc1 | hc2
        · have hcl : c ∈ l1 ++ l2 := by
            rw [hr]
            exact List.mem_append_left _ hc1
          rcases List.mem_append.mp hcl with h3 | h4
          · exact hl1id c h3 hcid
          · exact hl2id c h4 hcid
        · rcases List.mem_cons.mp hc2 with heq | hc3
          · exact hname ((congrArg ApiCollection.name heq).trans hu_name)
          · have hcl : c ∈ l1 ++ l2 := by
              rw [hr]
              exact List.mem_append_right _ (List.mem_cons_of_mem _ hc3)
            rcases List.mem_append.mp hcl with h3 | h4
            · exact hl1id c h3 hcid
            · exact hl2id c h4 hcid
      · rw [hmap]
        have heq2 : r1.flatMap ApiCollection.apis ++
            (u.apis ++ r2.flatMap ApiCollection.apis) =
            l1.flatMap ApiCollection.apis ++ l2.flatMap ApiCollection.apis := by
          have h5 := congrArg
            (fun l : List ApiCollection => l.flatMap ApiCollection.apis) hr
          simp only [List.flatMap_append, List.flatMap_cons] at h5
          exact h5.symm
        simp only [List.flatMap_append, List.flatMap_cons, List.flatMap_nil,
          List.append_nil]
        rw [List.append_assoc u.apis c.apis (r2.flatMap ApiCollection.apis)]
        refine (List.Perm.append_left _
          ((perm_cons_block c.apis u.apis _).symm)).trans ?_
        refine ((perm_cons_block c.apis (r1.flatMap ApiCollection.apis) _).symm).trans ?_
        rw [heq2]
        exact perm_cons_block c.apis _ _
      · refine ⟨{ u with apis := u.apis ++ c.apis }, ?_, hu_name,
          List.suffix_append u.apis c.apis⟩
        rw [hmap]
        exact List.mem_append_right _ (List.mem_cons_self _ _)
  exact ⟨hmain.1, hmain.2.1, hmain.2.2, hguard1, hguard2⟩

/-- Witness for C9: deleting the `Pets` collection (id `c1`) from a
two-collection workspace removes it, at concrete inputs discharging all
three hypotheses of the theorem. -/
theorem c9_collection_delete_rename_witness :
    (([⟨"u1", "Uncategorized", [⟨"a0", "n0", "/e0", "GET", "x"⟩]⟩,
        ⟨"c1", "Pets", [⟨"a1", "n1", "/e1", "GET", "y"⟩]⟩] :
          List ApiCollection).find? (fun x => x.id == "c1") =
        some ⟨"c1", "Pets", [⟨"a1", "n1", "/e1", "GET", "y"⟩]⟩ ∧
      ¬ ("Pets" : String) = UNCATEGORIZED ∧
      (([⟨"u1", "Uncategorized", [⟨"a0", "n0", "/e0", "GET", "x"⟩]⟩,
        ⟨"c1", "Pets", [⟨"a1", "n1", "/e1", "GET", "y"⟩]⟩] :
          List ApiCollection).map ApiCollection.id).Nodup) ∧
    (⟨"c1", "Pets", [⟨"a1", "n1", "/e1", "GET", "y"⟩]⟩ : ApiCollection) ∉
      deleteCollection 5 "c1"
        [⟨"u1", "Uncategorized", [⟨"a0", "n0", "/e0", "GET", "x"⟩]⟩,
          ⟨"c1", "Pets", [⟨"a1", "n1", "/e1", "GET", "y"⟩]⟩] :=
  ⟨⟨by decide, by decide, by decide⟩, by
    have h := @c9_collection_delete_rename 5 "c1"
      [⟨"u1", "Uncategorized", [⟨"a0", "n0", "/e0", "GET", "x"⟩]⟩,
        ⟨"c1", "Pets", [⟨"a1", "n1", "/e1", "GET", "y"⟩]⟩]
      ⟨"c1", "Pets", [⟨"a1", "n1", "/e1", "GET", "y"⟩]⟩
      (by decide) (by decide) (by decide)
    exact h.1⟩

end AIBackend
